import Mathlib

/-!
Verification of the naming, sync-planning and file-materialization logic of
`download.py` (a Google Classroom material downloader).

Strings are modelled as lists of characters (`Str`).  Python's built-in
character classification (`str.isprintable`, `str.isspace`) is an external
table, so it is supplied as a parameter (`CharClass`); every theorem below
holds for an arbitrary classification, and concrete evaluations instantiate
it with the ASCII table `asciiCC`.

The remote Drive service (`files().get`, `get_media`, export links, folder
listing) and the `mimetypes` module are likewise deterministic external
collaborators, modelled as oracle structures `Drive` and `MimeTypes`.
The local filesystem is a pair of entry lists (`FS`).
-/

/-- Python strings, modelled as lists of characters. -/
abbrev Str := List Char

/-- Decimal digit character for a value below ten (`'0'` is code point 48). -/
def digitChar (d : Nat) : Char := Char.ofNat (48 + d)

/-- Fuel-driven decimal digit expansion, most significant digit first,
prepended to an accumulator.  Mirrors the digit sequence produced by
Python's `format`/`str` on a nonnegative integer. -/
def natDigitsAux : Nat → Nat → List Char → List Char
  | 0, _, acc => acc
  | fuel + 1, n, acc =>
    if n < 10 then digitChar n :: acc
    else natDigitsAux fuel (n / 10) (digitChar (n % 10) :: acc)

/-- Decimal digits of a natural number, most significant first. -/
def natDigits (n : Nat) : Str := natDigitsAux (n + 1) n []

/-- Value of a digit string read left to right (leading zeros ignored). -/
def digitsVal (l : Str) : Nat := l.foldl (fun a c => a * 10 + (c.toNat - 48)) 0

/-- Zero-padded rendering of a counter to at least three digits: the Lean
form of Python's format specifier `03`. -/
def pad3 (k : Nat) : Str := List.replicate (3 - (natDigits k).length) '0' ++ natDigits k

/-- External character classification supplied by Python's `str` built-ins:
`isPrintable` models `str.isprintable`, `isSpace` models the whitespace
test used by argument-less `str.strip`.  The Unicode tables behind them are
outside the program, so the development is parametric in them. -/
structure CharClass where
  isPrintable : Char → Bool
  isSpace : Char → Bool

/-- ASCII instantiation of `CharClass`, used for concrete evaluations. -/
def asciiCC : CharClass where
  isPrintable := fun c => decide (32 ≤ c.toNat ∧ c.toNat ≤ 126)
  isSpace := fun c => decide (c ∈ [' ', Char.ofNat 9, Char.ofNat 10, Char.ofNat 11, Char.ofNat 12, Char.ofNat 13])

/-- Characters replaced by an underscore in `title_to_filename`
(the Python string literal contains a backslash, written here by code). -/
def underscoreSet : List Char := [Char.ofNat 92, '/', '<', '>', '|', '?', '*']

/-- All characters `title_to_filename` must remove, per the spec:
the underscore set together with the colon and the double quote. -/
def bannedSet : List Char := underscoreSet ++ [':', Char.ofNat 34]

/-- Per-character substitution of `title_to_filename`, in the order the
Python conditional expression tests: non-printable first, then the
underscore set, then colon, then double quote. -/
def charRule (cc : CharClass) (c : Char) : Char :=
  if !cc.isPrintable c then ' '
  else if c ∈ underscoreSet then '_'
  else if c = ':' then '-'
  else if c = Char.ofNat 34 then Char.ofNat 39
  else c

/-- Removal of matching characters from both ends: Python's `str.strip`. -/
def trimBoth (p : Char → Bool) (l : Str) : Str :=
  ((l.dropWhile p).reverse.dropWhile p).reverse

/-- Lean form of `title_to_filename`:
`s.strip().strip('.')[:200]` then `s or "no_name"`. -/
def title_to_filename (cc : CharClass) (title : Str) : Str :=
  let s := title.map (charRule cc)
  let s := trimBoth cc.isSpace s
  let s := trimBoth (fun c => decide (c = '.')) s
  let s := s.take 200
  if s = [] then ("no_name".data) else s

/-- A filesystem-safe name: non-empty and free of the banned characters. -/
def okName (n : Str) : Bool := !n.isEmpty && n.all (fun c => decide (c ∉ bannedSet))

/-- Python's `str.split('.')`: non-empty list of dot-free segments. -/
def splitOnDot : Str → List Str
  | [] => [[]]
  | c :: rest =>
    if c = '.' then [] :: splitOnDot rest
    else
      match splitOnDot rest with
      | s :: ss => (c :: s) :: ss
      | [] => [[c]]

/-- Python's `'.'.join`. -/
def joinDot : List Str → Str
  | [] => []
  | [s] => s
  | s :: ss => s ++ '.' :: joinDot ss

/-- Application of a function to the head of a list, used for Python's
`s2[0] += suffix`. -/
def applyHead (f : Str → Str) : List Str → List Str
  | [] => []
  | a :: as => f a :: as

/-- Counter suffix `_NNN` appended by `make_unique_names`. -/
def counterSuffix (k : Nat) : Str := '_' :: pad3 k

/-- Attachment of the `k`-th counter to a recurring name.  With
`hasExt = true` the counter is appended to the next-to-last dot segment
(`'photo.jpg' --> 'photo_001.jpg'`); otherwise it is appended directly
(`'party' --> 'party_001'`).  Mirrors the two branches inside the loop of
`make_unique_names`, including Python's `s[:-2]`/`s[-2:]` slicing. -/
def suffixName (hasExt : Bool) (name : Str) (k : Nat) : Str :=
  if hasExt then
    let s := splitOnDot name
    let s1 := s.take (s.length - 2)
    let s2 := s.drop (s.length - 2)
    joinDot (s1 ++ applyHead (fun a => a ++ counterSuffix k) s2)
  else name ++ counterSuffix k

/-- Update of the per-name counter dictionary (`suffix[name] += 1`). -/
def bumpCounter (suf : Str → Nat) (n : Str) : Str → Nat :=
  fun m => if m = n then suf n + 1 else suf m

/-- Loop of `make_unique_names`: walk the sanitized names, suffixing every
name the duplicate dictionary knows and bumping its counter. -/
def munLoop (hasExt : Bool) (dup : Str → Bool) : (Str → Nat) → List Str → List Str
  | _, [] => []
  | suf, n :: rest =>
    if dup n then suffixName hasExt n (suf n) :: munLoop hasExt dup (bumpCounter suf n) rest
    else n :: munLoop hasExt dup suf rest

/-- Lean form of `make_unique_names`: sanitize every name, count
occurrences, return the sanitized list unchanged when nothing recurs, and
otherwise run the suffixing loop with every counter starting at 1. -/
def make_unique_names (cc : CharClass) (names : List Str) (hasExt : Bool) : List Str :=
  let sn := names.map (title_to_filename cc)
  if sn.all (fun n => decide (sn.count n ≤ 1)) then sn
  else munLoop hasExt (fun n => decide (2 ≤ sn.count n)) (fun _ => 1) sn

/-- Dot-prefixed flattening of trailing segments. -/
def dotTail (l : List Str) : Str := (l.map (fun s => '.' :: s)).flatten

/-- Dot-suffixed flattening of leading segments. -/
def preJoin (l : List Str) : Str := (l.map (fun s => s ++ ['.'])).flatten

/-- Occurrence index (1-based) of position `i` within the sanitized list:
the counter value `make_unique_names` attaches there. -/
def occValue (sn : List Str) (i : Nat) : Nat := 1 + (sn.take i).count (sn.getD i [])

/-- Suffixed variant the loop produces at a duplicated position `i`. -/
def suffixedAt (hasExt : Bool) (sn : List Str) (i : Nat) : Str :=
  suffixName hasExt (sn.getD i []) (occValue sn i)

/-- Lexicographic comparison of strings by code point: Python's `<=` on
`str`, as used by `list.sort(key=...)` on ISO-8601 timestamps. -/
def lexLe : Str → Str → Bool
  | [], _ => true
  | _ :: _, [] => false
  | a :: as, b :: bs => if a = b then lexLe as bs else decide (a < b)

/-- Stable insertion of an element into a sorted list: the element goes
before the first entry it compares less-or-equal to. -/
def insertSorted (le : α → α → Bool) (a : α) : List α → List α
  | [] => [a]
  | b :: bs => if le a b then a :: b :: bs else b :: insertSorted le a bs

/-- Stable sort.  Python's `list.sort` is stable, and any two stable sorts
with the same comparator agree, so insertion sort models it exactly. -/
def insertionSort (le : α → α → Bool) : List α → List α
  | [] => []
  | a :: as => insertSorted le a (insertionSort le as)

def toLowerStr (s : Str) : Str := s.map Char.toLower

/-- Python's `str.endswith`. -/
def endsWithStr (s suf : Str) : Bool :=
  decide (suf.length ≤ s.length) && decide (s.drop (s.length - suf.length) = suf)

/-- Python's `str.startswith`. -/
def startsWithStr (s pre : Str) : Bool := decide (s.take pre.length = pre)

/-- Python's substring test `needle in hay`. -/
def subOf (needle : Str) : Str → Bool
  | [] => needle.isEmpty
  | c :: rest => startsWithStr (c :: rest) needle || subOf needle rest

/-- Dictionary key membership (`key in dict`) over an association list in
insertion order. -/
def keyMem (k : Str) (l : List (Str × Str)) : Bool := l.any (fun e => decide (e.1 = k))

/-- Dictionary access `dict[key]`, defined when `keyMem` holds. -/
def lookupStr (k : Str) (l : List (Str × Str)) : Str :=
  ((l.find? (fun e => decide (e.1 = k))).map (fun e => e.2)).getD []

/-- The `mimetypes` module: an external table.  `guessAllExtensions`
models `guess_all_extensions`, `guessExtension` models `guess_extension`
(`none` for an unknown type; Python returns `None` there, which
`add_extension` only consumes when `guess_all_extensions` was non-empty). -/
structure MimeTypes where
  guessAllExtensions : Str → List Str
  guessExtension : Str → Option Str

/-- Lean form of `choose_mime_type`: the Python `or`-chain of filtered
lists followed by the hardcoded Google-native fallbacks. -/
def choose_mime_type (choices : List Str) (documentType : Str) : Str :=
  let l1 := choices.filter (subOf ("vnd.openxmlformats-officedocument".data))
  let l2 := choices.filter (subOf ("vnd.oasis.opendocument".data))
  let l3 := choices.filter (subOf ("application/pdf".data))
  let l4 := choices.filter (fun t => startsWithStr t ("image/".data))
  let fmt := if l1 ≠ [] then l1 else if l2 ≠ [] then l2 else if l3 ≠ [] then l3
    else if l4 ≠ [] then l4 else choices
  match fmt with
  | f :: _ => f
  | [] =>
    if documentType = "application/vnd.google-apps.document".data then
      "application/vnd.openxmlformats-officedocument.wordprocessingml.document".data
    else if documentType = "application/vnd.google-apps.spreadsheet".data then
      "application/vnd.openxmlformats-officedocument.spreadsheetml.sheet".data
    else if documentType = "application/vnd.google-apps.presentation".data then
      "application/vnd.openxmlformats-officedocument.presentationml.presentation".data
    else if documentType = "application/vnd.google-apps.drawing".data then
      "application/pdf".data
    else documentType

/-- Lean form of `add_extension`: append the primary extension unless one
of the known extensions already ends the (case-folded) filename. -/
def add_extension (mt : MimeTypes) (filename mimeType : Str) : Str :=
  let extensions := mt.guessAllExtensions mimeType
  if !extensions.isEmpty &&
      !(extensions.any (fun ext => endsWithStr (toLowerStr filename) (toLowerStr ext))) then
    filename ++ ((mt.guessExtension mimeType).getD [])
  else filename

/-- One attached Drive file (dataclass `Material`).  `size` is `none` when
the Drive metadata carries no `size` field (exportable native documents);
Drive returns `size` as a non-empty decimal string, so Python's truthiness
test `if material.size` is `size.isSome` here. -/
structure Material where
  ID : Str
  title : Str
  filename : Str := []
  size : Option Nat := none
  creationTime : Str := []
  mimeType : Str := []
  exportLinks : List (Str × Str) := []
  downloaded : Bool := false
deriving DecidableEq

/-- Dataclass `CourseWorkMaterial`. -/
structure CourseWorkMaterial where
  ID : Str
  title : Str
  creationTime : Str
  dirname : Str := []
  materials : List Material := []
deriving DecidableEq

/-- Dataclass `Course`. -/
structure Course where
  ID : Str
  title : Str
  creationTime : Str
  dirname : Str := []
  courseWorkMaterials : List CourseWorkMaterial := []
deriving DecidableEq

/-- Metadata record returned by `files().get(fileId=..., fields=...)`. -/
structure DriveMeta where
  size : Option Nat := none
  createdTime : Str := []
  mimeType : Str := []
  exportLinks : List (Str × Str) := []
deriving DecidableEq

/-- One entry of a folder listing (`files` of a children query). -/
structure DriveChild where
  id : Str
  name : Str
  mimeType : Str
  kind : Str
deriving DecidableEq

/-- The remote Drive service and the HTTP client, as a deterministic
oracle: `getMeta` is `files().get`, `getMedia` is `files().get_media`,
`httpGet url` is `requests.get` returning (declared content type, body),
`exportMedia` is `files().export_media` (`none` models the raised
exception on conversion failure), `listChildren` is the paginated
children query. -/
structure Drive where
  getMeta : Str → DriveMeta
  getMedia : Str → Str
  httpGet : Str → Str × Str
  exportMedia : Str → Str → Option Str
  listChildren : Str → List DriveChild

/-- Lean form of `assign_directory_names` specialized to a `Course` list:
sort by creation time, sanitize every title into `dirname`, then replace
the dirnames by their deduplicated versions. -/
def assign_directory_names_courses (cc : CharClass) (courses : List Course) : List Course :=
  let sorted := insertionSort (fun a b => lexLe a.creationTime b.creationTime) courses
  let named := sorted.map (fun c => { c with dirname := title_to_filename cc c.title })
  let newNames := make_unique_names cc (named.map (fun c => c.dirname)) false
  List.zipWith (fun c n => { c with dirname := n }) named newNames

/-- Lean form of `assign_directory_names` specialized to a
`CourseWorkMaterial` list. -/
def assign_directory_names_cwms (cc : CharClass) (cwms : List CourseWorkMaterial) : List CourseWorkMaterial :=
  let sorted := insertionSort (fun a b => lexLe a.creationTime b.creationTime) cwms
  let named := sorted.map (fun w => { w with dirname := title_to_filename cc w.title })
  let newNames := make_unique_names cc (named.map (fun w => w.dirname)) false
  List.zipWith (fun w n => { w with dirname := n }) named newNames

/-- Metadata refresh of one material inside `assign_file_names`: overwrite
size, creation time, MIME type and export links from `files().get`, and
sanitize the title into the filename. -/
def refreshMaterial (cc : CharClass) (drive : Drive) (m : Material) : Material :=
  let attr := drive.getMeta m.ID
  { m with size := attr.size, creationTime := attr.createdTime, mimeType := attr.mimeType,
           exportLinks := attr.exportLinks, filename := title_to_filename cc m.title }

/-- Export-format resolution and extension attachment of one material
inside `assign_file_names`: materials without a size get
`choose_mime_type` over their export-link keys, then `add_extension`. -/
def resolveMime (mt : MimeTypes) (m : Material) : Material :=
  let mime := if m.size.isSome then m.mimeType
    else choose_mime_type (m.exportLinks.map (fun e => e.1)) m.mimeType
  { m with mimeType := mime, filename := add_extension mt m.filename mime }

/-- Lean form of `assign_file_names`: refresh metadata, sort by (fetched)
creation time, resolve MIME types and extensions, deduplicate names. -/
def assign_file_names (cc : CharClass) (drive : Drive) (mt : MimeTypes)
    (materials : List Material) : List Material :=
  let ms := materials.map (refreshMaterial cc drive)
  let ms := insertionSort (fun a b => lexLe a.creationTime b.creationTime) ms
  let ms := ms.map (resolveMime mt)
  let newNames := make_unique_names cc (ms.map (fun m => m.filename)) true
  List.zipWith (fun m n => { m with filename := n }) ms newNames

/-- A path below the output directory (one component per `/`-segment). -/
abbrev FsPath := List Str

/-- The local filesystem: file entries with contents, plus the set of
directories. -/
structure FS where
  files : List (FsPath × Str)
  dirs : List FsPath
deriving DecidableEq

/-- Python's `Path.is_file`. -/
def FS.isFile (fs : FS) (p : FsPath) : Bool := fs.files.any (fun e => decide (e.1 = p))

/-- Python's `Path.is_dir`. -/
def FS.isDir (fs : FS) (p : FsPath) : Bool := fs.dirs.any (fun q => decide (q = p))

/-- Existence of either kind of entry, the check `open(..., 'xb')` fails
on. -/
def FS.existsPath (fs : FS) (p : FsPath) : Bool := fs.isFile p || fs.isDir p

def FS.entryPaths (fs : FS) : List FsPath := fs.files.map (fun e => e.1) ++ fs.dirs

/-- Names of the immediate children of `p`: Python's `os.listdir`. -/
def FS.childNames (fs : FS) (p : FsPath) : List Str :=
  fs.entryPaths.filterMap (fun q =>
    if decide (q.length = p.length + 1) && decide (q.take p.length = p) then some (q.getLastD [])
    else none)

/-- Size of `os.listdir(path)`. -/
def FS.listdirLen (fs : FS) (p : FsPath) : Nat := (fs.childNames p).dedup.length

/-- All non-empty prefixes of a path, shortest first. -/
def pathPrefixes (p : FsPath) : List FsPath := (List.range p.length).map (fun i => p.take (i + 1))

/-- Creation of one directory if missing (`exist_ok=True`). -/
def FS.addDir (fs : FS) (q : FsPath) : FS :=
  if fs.isDir q then fs else { fs with dirs := q :: fs.dirs }

/-- Python's `Path.mkdir(parents=True, exist_ok=True)` on `p`. -/
def FS.mkdirParents (fs : FS) (p : FsPath) : FS := (pathPrefixes p).foldl FS.addDir fs

/-- Successful `open(p, 'xb')` followed by the write. -/
def FS.createFile (fs : FS) (p : FsPath) (data : Str) : FS :=
  { fs with files := (p, data) :: fs.files }

/-- Growth order on filesystems: every entry survives, with its content. -/
def FS.Le (a b : FS) : Prop := (∀ e ∈ a.files, e ∈ b.files) ∧ (∀ d ∈ a.dirs, d ∈ b.dirs)

/-- Outcome of a materializer step: normal return, or a raised exception
that propagates to the caller. -/
inductive DLOut
  | ok
  | exc
deriving DecidableEq

/-- Write step shared by the non-folder branches of `download_file`:
`filepath.parent.mkdir(parents=True, exist_ok=True)`, then
`open(filepath, 'xb')`, then `f.write(data)`.  Passing `none` models the
fall-through of the export-mismatch branch, which reaches the write with
the local variable `data` unbound: `open('xb')` still creates an empty
file, then evaluating `data` raises `UnboundLocalError`. -/
def writeStep (fs : FS) (p : FsPath) (data? : Option Str) : FS × DLOut :=
  let fs1 := fs.mkdirParents p.dropLast
  if fs1.existsPath p then (fs1, DLOut.exc)
  else
    match data? with
    | some d => (fs1.createFile p d, DLOut.ok)
    | none => (fs1.createFile p [], DLOut.exc)

/-- Warnings `download_file` prints. -/
inductive Warn
  | unableToDownload
  | folderItem
  | exportFailed
deriving DecidableEq

def folderMime : Str := "application/vnd.google-apps.folder".data

/-- Loop over the children of a folder material: every `drive#file` child
is fetched and written with exclusive create under `filepath`; any other
child is skipped with a warning.  A failing `open` raises and aborts the
remaining children. -/
def folderLoop (drive : Drive) (filepath : FsPath) : FS → List (DriveChild × Str) → FS × List Warn × DLOut
  | fs, [] => (fs, [], DLOut.ok)
  | fs, (child, childname) :: rest =>
    if child.kind = "drive#file".data then
      let childdata := drive.getMedia child.id
      let fs1 := fs.mkdirParents filepath
      if fs1.existsPath (filepath ++ [childname]) then (fs1, [], DLOut.exc)
      else
        let r := folderLoop drive filepath (fs1.createFile (filepath ++ [childname]) childdata) rest
        (r.1, r.2.1, r.2.2)
    else
      let r := folderLoop drive filepath fs rest
      (r.1, Warn.folderItem :: r.2.1, r.2.2)

/-- Lean form of `download_file`, branching exactly as the Python `if`
chain: direct download when a size is known, export link when one matches
the resolved MIME type (with the content-type comparison), folder
expansion, and finally the export-conversion fallback whose failure is
swallowed with a warning. -/
def download_file (cc : CharClass) (drive : Drive) (mt : MimeTypes) (m : Material)
    (filepath : FsPath) (fs : FS) : FS × List Warn × DLOut :=
  if m.size.isSome then
    let ws := writeStep fs filepath (some (drive.getMedia m.ID))
    (ws.1, [], ws.2)
  else if keyMem m.mimeType m.exportLinks then
    let r := drive.httpGet (lookupStr m.mimeType m.exportLinks)
    if r.1 = m.mimeType then
      let ws := writeStep fs filepath (some r.2)
      (ws.1, [], ws.2)
    else
      let ws := writeStep fs filepath none
      (ws.1, [Warn.unableToDownload], ws.2)
  else if m.mimeType = folderMime then
    let children := drive.listChildren m.ID
    let childnames := make_unique_names cc
      (children.map (fun c => add_extension mt c.name c.mimeType)) true
    folderLoop drive filepath fs (children.zip childnames)
  else
    match drive.exportMedia m.ID m.mimeType with
    | none => (fs, [Warn.exportFailed], DLOut.ok)
    | some data =>
      let ws := writeStep fs filepath (some data)
      (ws.1, [], ws.2)

/-- Directory-name pass of `assign_dir_and_file_names`: the course list
sorted and named, then every course's group list sorted and named.  The
Python loop interleaves the per-course naming with the flag checks below,
but no group's check depends on another group's name, so the two passes
compose. -/
def stageNames (cc : CharClass) (courses : List Course) : List Course :=
  (assign_directory_names_courses cc courses).map
    (fun c => { c with courseWorkMaterials := assign_directory_names_cwms cc c.courseWorkMaterials })

/-- Fast-path condition of one group: the planned directory exists and
holds at least as many entries as the group has materials. -/
def fastCond (fs : FS) (cdir : Str) (w : CourseWorkMaterial) : Bool :=
  fs.isDir [cdir, w.dirname] && decide (w.materials.length ≤ fs.listdirLen [cdir, w.dirname])

/-- Fast-path check of one group (first loop of
`assign_dir_and_file_names`): if the planned directory exists with at
least as many entries as the group has materials, mark every material
downloaded, otherwise clear every flag. -/
def setGroupFlags (fs : FS) (cdir : Str) (w : CourseWorkMaterial) : CourseWorkMaterial :=
  { w with materials := w.materials.map (fun m => { m with downloaded := fastCond fs cdir w }) }

/-- First loop of `assign_dir_and_file_names` applied to the whole
catalog. -/
def stageFlags (cc : CharClass) (fs : FS) (courses : List Course) : List Course :=
  (stageNames cc courses).map
    (fun c => { c with courseWorkMaterials := c.courseWorkMaterials.map (setGroupFlags fs c.dirname) })

/-- Second loop of `assign_dir_and_file_names`, for one group: a group
with a pending material has its metadata refreshed (the middle component
records the per-file `files().get` calls of `assign_file_names`) and its
flags set by a per-file existence test, counting the still-missing files;
a fully-flagged group is left untouched with no metadata call. -/
def processGroup (cc : CharClass) (drive : Drive) (mt : MimeTypes) (fs : FS) (cdir : Str)
    (w : CourseWorkMaterial) : CourseWorkMaterial × List Str × Nat :=
  if w.materials.any (fun m => !m.downloaded) then
    let ms := assign_file_names cc drive mt w.materials
    let ms := ms.map (fun m => { m with downloaded := fs.isFile [cdir, w.dirname, m.filename] })
    ({ w with materials := ms }, w.materials.map (fun m => m.ID), ms.countP (fun m => !m.downloaded))
  else (w, [], 0)

/-- Lean form of `assign_dir_and_file_names`: both loops, returning the
updated catalog and `count_to_download`. -/
def assign_dir_and_file_names (cc : CharClass) (drive : Drive) (mt : MimeTypes)
    (courses : List Course) (fs : FS) : List Course × Nat :=
  let rs := (stageFlags cc fs courses).map (fun c =>
    let grs := c.courseWorkMaterials.map (processGroup cc drive mt fs c.dirname)
    ({ c with courseWorkMaterials := grs.map (fun r => r.1) }, (grs.map (fun r => r.2.2)).sum))
  (rs.map (fun r => r.1), (rs.map (fun r => r.2)).sum)

/-- Inner loop of `download_missing_files` over one group's materials:
pending materials are passed to `download_file`; an exception aborts the
walk.  The middle component counts `download_file` invocations. -/
def downloadMats (cc : CharClass) (drive : Drive) (mt : MimeTypes) (cdir wdir : Str) :
    FS → List Material → FS × Nat × DLOut
  | fs, [] => (fs, 0, DLOut.ok)
  | fs, m :: rest =>
    if m.downloaded then downloadMats cc drive mt cdir wdir fs rest
    else
      let r := download_file cc drive mt m [cdir, wdir, m.filename] fs
      match r.2.2 with
      | DLOut.exc => (r.1, 1, DLOut.exc)
      | DLOut.ok =>
        let t := downloadMats cc drive mt cdir wdir r.1 rest
        (t.1, t.2.1 + 1, t.2.2)

/-- Loop of `download_missing_files` over one course's groups. -/
def downloadCWMs (cc : CharClass) (drive : Drive) (mt : MimeTypes) (cdir : Str) :
    FS → List CourseWorkMaterial → FS × Nat × DLOut
  | fs, [] => (fs, 0, DLOut.ok)
  | fs, w :: rest =>
    let r := downloadMats cc drive mt cdir w.dirname fs w.materials
    match r.2.2 with
    | DLOut.exc => (r.1, r.2.1, DLOut.exc)
    | DLOut.ok =>
      let t := downloadCWMs cc drive mt cdir r.1 rest
      (t.1, r.2.1 + t.2.1, t.2.2)

/-- Loop of `download_missing_files` over the courses. -/
def downloadCourses (cc : CharClass) (drive : Drive) (mt : MimeTypes) :
    FS → List Course → FS × Nat × DLOut
  | fs, [] => (fs, 0, DLOut.ok)
  | fs, c :: rest =>
    let r := downloadCWMs cc drive mt c.dirname fs c.courseWorkMaterials
    match r.2.2 with
    | DLOut.exc => (r.1, r.2.1, DLOut.exc)
    | DLOut.ok =>
      let t := downloadCourses cc drive mt r.1 rest
      (t.1, r.2.1 + t.2.1, t.2.2)

/-- Lean form of `download_missing_files`.  The Python loop never touches
the `downloaded` flags, so only the filesystem, the number of
`download_file` calls and the outcome are returned. -/
def download_missing_files (cc : CharClass) (drive : Drive) (mt : MimeTypes)
    (courses : List Course) (fs : FS) : FS × Nat × DLOut :=
  downloadCourses cc drive mt fs courses

/-- One full run of the tool on a fetched catalog: plan, then download. -/
def runSync (cc : CharClass) (drive : Drive) (mt : MimeTypes)
    (courses : List Course) (fs : FS) : (List Course × Nat) × (FS × Nat × DLOut) :=
  let plan := assign_dir_and_file_names cc drive mt courses fs
  (plan, download_missing_files cc drive mt plan.1 fs)

/-- The full planning step for one group: flag pass then refresh pass. -/
def planGroup (cc : CharClass) (drive : Drive) (mt : MimeTypes) (fs : FS) (cdir : Str)
    (w : CourseWorkMaterial) : CourseWorkMaterial × List Str × Nat :=
  processGroup cc drive mt fs cdir (setGroupFlags fs cdir w)

/-- Every material of the catalog carries `downloaded = true`. -/
def allDownloaded (courses : List Course) : Bool :=
  courses.all (fun c => c.courseWorkMaterials.all (fun w => w.materials.all (fun m => m.downloaded)))

/-- After a run: every material the planner left pending has its planned
file present in the filesystem. -/
def allPendingMaterialized (courses : List Course) (fs : FS) : Bool :=
  courses.all (fun c => c.courseWorkMaterials.all (fun w => w.materials.all
    (fun m => m.downloaded || fs.isFile [c.dirname, w.dirname, m.filename])))

/-- A dummy course for total indexing. -/
def dummyCourse : Course := { ID := [], title := [], creationTime := [] }

/-- A dummy group for total indexing. -/
def dummyCWM : CourseWorkMaterial := { ID := [], title := [], creationTime := [] }

/-- Group-level check: a group whose flags are all set is left untouched. -/
def groupUntouched (w1 w2 : CourseWorkMaterial) : Bool :=
  !(w1.materials.all (fun m => m.downloaded)) || decide (w2 = w1)

/-- Pairwise check over two planner stages: every group fully flagged in
the first is identical (flags included) in the second. -/
def flagsMonotone (c1 c2 : List Course) : Bool :=
  (c1.zip c2).all (fun p => (p.1.courseWorkMaterials.zip p.2.courseWorkMaterials).all
    (fun q => groupUntouched q.1 q.2))

/-- Removal of matching characters from the end only. -/
def trimTrailing (p : Char → Bool) (l : Str) : Str := (l.reverse.dropWhile p).reverse

/-- Modelled from claim C3's words: the same sanitizer pipeline but with
only the trailing periods trimmed (`title_to_filename` strips both ends,
since Python's `strip('.')` is two-sided). -/
def title_to_filename_claimC3 (cc : CharClass) (title : Str) : Str :=
  let s := title.map (charRule cc)
  let s := trimBoth cc.isSpace s
  let s := trimTrailing (fun c => decide (c = '.')) s
  let s := s.take 200
  if s = [] then ("no_name".data) else s

/-- The sanitizer pipeline as the amended claim words it: per-character
substitution, surrounding-whitespace trim, leading-and-trailing period
trim, truncation to 200, and the "no_name" fallback. -/
def title_to_filename_amendedC3 (cc : CharClass) (title : Str) : Str :=
  let s := title.map (charRule cc)
  let s := trimBoth cc.isSpace s
  let s := trimBoth (fun c => decide (c = '.')) s
  let s := s.take 200
  if s = [] then ("no_name".data) else s

/-- Oracle with no remote content, for concrete evaluations. -/
def dummyDrive : Drive where
  getMeta := fun _ => {}
  getMedia := fun _ => []
  httpGet := fun _ => ([], [])
  exportMedia := fun _ _ => none
  listChildren := fun _ => []

/-- Mimetypes table that knows no type, for concrete evaluations. -/
def dummyMT : MimeTypes where
  guessAllExtensions := fun _ => []
  guessExtension := fun _ => none

/-- Decidable collision-freedom of the counter suffixes over an input of
`make_unique_names`: for every pair of positions, the suffixed variant of
a duplicated sanitized name differs from the suffixed variant of any
other duplicated sanitized name, and from every once-occurring sanitized
name. -/
def noNewCollision (cc : CharClass) (names : List Str) (hasExt : Bool) : Bool :=
  (List.range names.length).all (fun i => (List.range names.length).all (fun j =>
    (!(decide (2 ≤ (names.map (title_to_filename cc)).count ((names.map (title_to_filename cc)).getD i [])) &&
       decide (2 ≤ (names.map (title_to_filename cc)).count ((names.map (title_to_filename cc)).getD j [])) &&
       decide ((names.map (title_to_filename cc)).getD i [] ≠ (names.map (title_to_filename cc)).getD j [])) ||
     decide (suffixedAt hasExt (names.map (title_to_filename cc)) i ≠
       suffixedAt hasExt (names.map (title_to_filename cc)) j)) &&
    (!(decide (2 ≤ (names.map (title_to_filename cc)).count ((names.map (title_to_filename cc)).getD i [])) &&
       decide ((names.map (title_to_filename cc)).count ((names.map (title_to_filename cc)).getD j []) = 1)) ||
     decide (suffixedAt hasExt (names.map (title_to_filename cc)) i ≠
       (names.map (title_to_filename cc)).getD j []))))

/-- Catalog and filesystem for the C4 witness: one course "C" with one
group "W" holding one material, and a local directory `C/W` that already
contains one (stray) entry. -/
def c4Material : Material := { ID := "f1".data, title := "F".data }

def c4CWM : CourseWorkMaterial :=
  { ID := "w1".data, title := "W".data, creationTime := "t".data, materials := [c4Material] }

def c4Course : Course :=
  { ID := "c1".data, title := "C".data, creationTime := "t".data, courseWorkMaterials := [c4CWM] }

def c4FS : FS :=
  { files := [(["C".data, "W".data, "x".data], [])], dirs := [["C".data], ["C".data, "W".data]] }

/-- Sized material and filesystem for the C7 witness: the destination
path `a` already holds a file with content "OLD". -/
def c7Material : Material := { ID := "f1".data, title := "F".data, filename := "f".data, size := some 5 }

def c7FS : FS := { files := [(["a".data], "OLD".data)], dirs := [] }

/-- The empty output directory. -/
def emptyFS : FS := { files := [], dirs := [] }

/-- Exportable material whose resolved export MIME type has a link. -/
def c1Material : Material :=
  { ID := "f1".data, title := "F".data, filename := "f.pdf".data, size := none,
    mimeType := "application/pdf".data, exportLinks := [("application/pdf".data, "link".data)] }

/-- Drive oracle whose HTTP response declares a different content type
than the one requested. -/
def c1Drive : Drive where
  getMeta := fun _ => {}
  getMedia := fun _ => []
  httpGet := fun _ => ("text/html".data, "oops".data)
  exportMedia := fun _ _ => none
  listChildren := fun _ => []

/-- A folder material: no size, folder MIME type, no children. -/
def c5FolderMaterial : Material := { ID := "fo".data, title := "Fo".data }

/-- Drive oracle for the C5 counterexample: the single material resolves
to an empty folder. -/
def c5FolderDrive : Drive where
  getMeta := fun _ => { size := none, createdTime := "t".data, mimeType := folderMime, exportLinks := [] }
  getMedia := fun _ => []
  httpGet := fun _ => ([], [])
  exportMedia := fun _ _ => none
  listChildren := fun _ => []

def c5CWM : CourseWorkMaterial :=
  { ID := "w".data, title := "W".data, creationTime := "t".data, materials := [c5FolderMaterial] }

def c5Catalog : List Course :=
  [{ ID := "c".data, title := "C".data, creationTime := "t".data, courseWorkMaterials := [c5CWM] }]

/-- A directly downloadable material (size known). -/
def c5DirectMaterial : Material := { ID := "f".data, title := "F".data }

/-- Drive oracle for the C5 witness: the single material has a size and
direct content. -/
def c5DirectDrive : Drive where
  getMeta := fun _ =>
    { size := some 5, createdTime := "t".data, mimeType := "application/pdf".data, exportLinks := [] }
  getMedia := fun _ => "DATA".data
  httpGet := fun _ => ([], [])
  exportMedia := fun _ _ => none
  listChildren := fun _ => []

def c5CWM2 : CourseWorkMaterial :=
  { ID := "w".data, title := "W".data, creationTime := "t".data, materials := [c5DirectMaterial] }

def c5Catalog2 : List Course :=
  [{ ID := "c".data, title := "C".data, creationTime := "t".data, courseWorkMaterials := [c5CWM2] }]

theorem natDigitsAux_acc (fuel n : Nat) (acc : List Char) :
    natDigitsAux fuel n acc = natDigitsAux fuel n [] ++ acc := by
  induction fuel generalizing n acc with
  | zero => simp [natDigitsAux]
  | succ fuel ih =>
    by_cases h : n < 10
    · simp [natDigitsAux, h]
    · rw [natDigitsAux, if_neg h, natDigitsAux, if_neg h, ih (n / 10), ih (n / 10) [digitChar (n % 10)]]
      simp

theorem foldlVal_append (a : Nat) (l₁ l₂ : Str) :
    (l₁ ++ l₂).foldl (fun a c => a * 10 + (c.toNat - 48)) a
      = l₂.foldl (fun a c => a * 10 + (c.toNat - 48)) (l₁.foldl (fun a c => a * 10 + (c.toNat - 48)) a) :=
  List.foldl_append _ _ _ _

theorem toNat_digitChar (d : Nat) (h : d < 10) : (digitChar d).toNat = 48 + d := by
  interval_cases d <;> decide

theorem digitsVal_natDigits (n : Nat) : digitsVal (natDigits n) = n := by
  suffices h : ∀ fuel n, n < fuel → digitsVal (natDigitsAux fuel n []) = n from h (n + 1) n (Nat.lt_succ_self n)
  intro fuel
  induction fuel with
  | zero => intro n h; omega
  | succ fuel ih =>
    intro n hn
    by_cases h : n < 10
    · simp [natDigitsAux, h, digitsVal, toNat_digitChar n h]
    · rw [natDigitsAux, if_neg h, natDigitsAux_acc]
      have hq : n / 10 < fuel := by omega
      have := ih (n / 10) hq
      rw [digitsVal, foldlVal_append]
      rw [digitsVal] at this
      rw [this]
      simp [toNat_digitChar (n % 10) (Nat.mod_lt n (by norm_num))]
      omega

theorem digitsVal_pad3 (k : Nat) : digitsVal (pad3 k) = k := by
  have hz : ∀ m l, digitsVal (List.replicate m '0' ++ l) = digitsVal l := by
    intro m
    induction m with
    | zero => intro l; simp
    | succ m ih => intro l; simpa [digitsVal, List.replicate_succ, foldlVal_append] using ih l
  rw [pad3, hz, digitsVal_natDigits]

theorem pad3_injective {k k' : Nat} (h : pad3 k = pad3 k') : k = k' := by
  have := congrArg digitsVal h
  rwa [digitsVal_pad3, digitsVal_pad3] at this

theorem natDigitsAux_ne_nil (fuel n : Nat) (h : 0 < fuel) : natDigitsAux fuel n [] ≠ [] := by
  cases fuel with
  | zero => omega
  | succ fuel =>
    by_cases h10 : n < 10
    · simp [natDigitsAux, h10]
    · rw [natDigitsAux, if_neg h10, natDigitsAux_acc]
      simp

theorem pad3_ne_nil (k : Nat) : pad3 k ≠ [] := by
  intro h
  have hlen := congrArg List.length h
  rw [pad3, List.length_append] at hlen
  cases hl : natDigits k with
  | nil => exact (by rw [natDigits] at hl; exact natDigitsAux_ne_nil (k + 1) k (Nat.succ_pos k) hl)
  | cons a l => rw [hl] at hlen; simp at hlen

/-- Membership description of the characters of `natDigitsAux`. -/
theorem mem_natDigitsAux (fuel n : Nat) (acc : List Char) :
    ∀ c ∈ natDigitsAux fuel n acc, (∃ d, d < 10 ∧ c = digitChar d) ∨ c ∈ acc := by
  induction fuel generalizing n acc with
  | zero => intro c hc; exact Or.inr hc
  | succ fuel ih =>
    intro c hc
    by_cases h : n < 10
    · rw [natDigitsAux, if_pos h] at hc
      rcases List.mem_cons.mp hc with h' | h'
      · exact Or.inl ⟨n, h, h'⟩
      · exact Or.inr h'
    · rw [natDigitsAux, if_neg h] at hc
      rcases ih (n / 10) _ c hc with h' | h'
      · exact Or.inl h'
      · rcases List.mem_cons.mp h' with h'' | h''
        · exact Or.inl ⟨n % 10, Nat.mod_lt n (by norm_num), h''⟩
        · exact Or.inr h''

/-- Every character of `pad3 k` is a decimal digit character. -/
theorem mem_pad3 (k : Nat) : ∀ c ∈ pad3 k, ∃ d, d < 10 ∧ c = digitChar d := by
  intro c hc
  rw [pad3] at hc
  rcases List.mem_append.mp hc with h | h
  · exact ⟨0, by norm_num, (List.eq_of_mem_replicate h)⟩
  · rcases mem_natDigitsAux (k + 1) k [] c h with h' | h'
    · exact h'
    · simp at h'

theorem trimBoth_subset (p : Char → Bool) (l : Str) : ∀ c ∈ trimBoth p l, c ∈ l := by
  intro c hc
  rw [trimBoth, List.mem_reverse] at hc
  have h1 := (List.dropWhile_sublist (l := (l.dropWhile p).reverse) p).mem hc
  rw [List.mem_reverse] at h1
  exact (List.dropWhile_sublist p).mem h1

theorem charRule_not_banned (cc : CharClass) (c : Char) : charRule cc c ∉ bannedSet := by
  rw [charRule]
  by_cases h1 : !cc.isPrintable c
  · rw [if_pos h1]; decide
  · rw [if_neg h1]
    by_cases h2 : c ∈ underscoreSet
    · rw [if_pos h2]; decide
    · rw [if_neg h2]
      by_cases h3 : c = ':'
      · rw [if_pos h3]; decide
      · rw [if_neg h3]
        by_cases h4 : c = Char.ofNat 34
        · rw [if_pos h4]; decide
        · rw [if_neg h4]
          intro hmem
          rw [bannedSet] at hmem
          rcases List.mem_append.mp hmem with h | h
          · exact h2 h
          · rcases List.mem_cons.mp h with h | h
            · exact h3 h
            · exact h4 (by simpa using h)

/-- The body of `title_to_filename` before the fallback never keeps a
banned character. -/
theorem title_to_filename_core_not_banned (cc : CharClass) (title : Str) :
    ∀ c ∈ (trimBoth (fun c => decide (c = '.')) (trimBoth cc.isSpace (title.map (charRule cc)))).take 200,
      c ∉ bannedSet := by
  intro c hc
  have h1 := (List.take_sublist 200 _).mem hc
  have h2 := trimBoth_subset _ _ _ h1
  have h3 := trimBoth_subset _ _ _ h2
  rcases List.mem_map.mp h3 with ⟨a, _, ha⟩
  rw [← ha]
  exact charRule_not_banned cc a

theorem okName_title_to_filename (cc : CharClass) (title : Str) :
    okName (title_to_filename cc title) = true := by
  rw [title_to_filename]
  by_cases h : (trimBoth (fun c => decide (c = '.')) (trimBoth cc.isSpace (title.map (charRule cc)))).take 200 = []
  · simp only [h, if_pos]
    decide
  · simp only [if_neg h]
    rw [okName, Bool.and_eq_true, List.all_eq_true]
    constructor
    · simpa [List.isEmpty_iff] using h
    · intro c hc
      simpa using title_to_filename_core_not_banned cc title c hc

theorem title_to_filename_ne_nil (cc : CharClass) (title : Str) :
    title_to_filename cc title ≠ [] := by
  have h := okName_title_to_filename cc title
  rw [okName, Bool.and_eq_true] at h
  simpa [List.isEmpty_iff] using h.1

theorem title_to_filename_length_le (cc : CharClass) (title : Str) :
    (title_to_filename cc title).length ≤ 200 := by
  rw [title_to_filename]
  by_cases h : (trimBoth (fun c => decide (c = '.')) (trimBoth cc.isSpace (title.map (charRule cc)))).take 200 = []
  · simp only [h, if_pos]
    decide
  · simp only [if_neg h]
    simp [List.length_take]

theorem munLoop_length (hasExt : Bool) (dup : Str → Bool) (suf : Str → Nat) (l : List Str) :
    (munLoop hasExt dup suf l).length = l.length := by
  induction l generalizing suf with
  | nil => rfl
  | cons n rest ih =>
    rw [munLoop]
    by_cases h : dup n
    · rw [if_pos h]; simp [ih]
    · rw [if_neg h]; simp [ih]

theorem make_unique_names_length (cc : CharClass) (names : List Str) (hasExt : Bool) :
    (make_unique_names cc names hasExt).length = names.length := by
  rw [make_unique_names]
  by_cases h : (names.map (title_to_filename cc)).all (fun n => decide ((names.map (title_to_filename cc)).count n ≤ 1))
  · simp only [if_pos h]
    simp
  · simp only [if_neg h]
    rw [munLoop_length]
    simp

/-- Closed form of the suffixing loop: position `i` receives the counter
value carried in plus the number of earlier occurrences of its name. -/
theorem munLoop_getD (hasExt : Bool) (dup : Str → Bool) (suf : Str → Nat) (l : List Str)
    (i : Nat) (hi : i < l.length) :
    (munLoop hasExt dup suf l).getD i [] =
      (if dup (l.getD i []) then
        suffixName hasExt (l.getD i []) (suf (l.getD i []) + (l.take i).count (l.getD i []))
      else l.getD i []) := by
  induction l generalizing suf i with
  | nil => exact absurd hi (by simp)
  | cons n rest ih =>
    by_cases h : dup n
    · rw [munLoop, if_pos h]
      cases i with
      | zero => simp [h]
      | succ i =>
        have hi' : i < rest.length := by simpa using hi
        rw [List.getD_cons_succ, List.getD_cons_succ, ih (bumpCounter suf n) i hi']
        set x := rest.getD i [] with hx
        by_cases hd : dup x
        · rw [if_pos hd, if_pos hd]
          have htake : ((n :: rest).take (i + 1)).count x = (rest.take i).count x + (if n = x then 1 else 0) := by
            rw [List.take_succ_cons, List.count_cons]
            simp
          rw [htake, bumpCounter]
          by_cases hxn : x = n
          · rw [if_pos hxn, hxn, if_pos rfl]
            ring_nf
          · rw [if_neg hxn, if_neg (fun hh => hxn hh.symm)]
            ring_nf
        · rw [if_neg hd, if_neg hd]
    · rw [munLoop, if_neg h]
      cases i with
      | zero => simp [h]
      | succ i =>
        have hi' : i < rest.length := by simpa using hi
        rw [List.getD_cons_succ, List.getD_cons_succ, ih suf i hi']
        set x := rest.getD i [] with hx
        by_cases hd : dup x
        · rw [if_pos hd, if_pos hd]
          have hxn : ¬ n = x := fun hxn => h (hxn ▸ hd)
          have htake : ((n :: rest).take (i + 1)).count x = (rest.take i).count x := by
            rw [List.take_succ_cons, List.count_cons]
            simp [hxn]
          rw [htake]
        · rw [if_neg hd, if_neg hd]

theorem joinDot_cons_of_ne (s : Str) (ss : List Str) (h : ss ≠ []) :
    joinDot (s :: ss) = s ++ '.' :: joinDot ss := by
  cases ss with
  | nil => exact absurd rfl h
  | cons t ts => rfl

theorem joinDot_cons_eq (x : Str) (xs : List Str) : joinDot (x :: xs) = x ++ dotTail xs := by
  induction xs generalizing x with
  | nil => simp [joinDot, dotTail]
  | cons y ys ih =>
    rw [joinDot_cons_of_ne x (y :: ys) (by simp), ih y]
    simp [dotTail]

theorem joinDot_append_cons (s1 : List Str) (u : Str) (tail : List Str) :
    joinDot (s1 ++ u :: tail) = preJoin s1 ++ u ++ dotTail tail := by
  induction s1 with
  | nil => simp [preJoin, joinDot_cons_eq]
  | cons x xs ih =>
    rw [List.cons_append, joinDot_cons_of_ne x (xs ++ u :: tail) (by simp), ih]
    simp [preJoin]

theorem splitOnDot_ne_nil (m : Str) : splitOnDot m ≠ [] := by
  cases m with
  | nil => simp [splitOnDot]
  | cons c rest =>
    rw [splitOnDot]
    by_cases h : c = '.'
    · simp [h]
    · rw [if_neg h]
      cases hs : splitOnDot rest with
      | nil => simp
      | cons s ss => simp

/-- Python's `s[-2:]` of a split is never empty, so `applyHead` always has a
head to attach the counter to. -/
theorem splitDrop_ne_nil (m : Str) :
    (splitOnDot m).drop ((splitOnDot m).length - 2) ≠ [] := by
  have h1 : (splitOnDot m).length ≠ 0 := fun h => splitOnDot_ne_nil m (List.length_eq_zero.mp h)
  intro h
  rw [List.drop_eq_nil_iff] at h
  omega

theorem suffixName_decomp (m : Str) (k : Nat) :
    ∃ pre a tail, (splitOnDot m).drop ((splitOnDot m).length - 2) = a :: tail ∧
      pre = preJoin ((splitOnDot m).take ((splitOnDot m).length - 2)) ∧
      suffixName true m k = pre ++ (a ++ '_' :: pad3 k) ++ dotTail tail := by
  rcases hd : (splitOnDot m).drop ((splitOnDot m).length - 2) with _ | ⟨a, tail⟩
  · exact absurd hd (splitDrop_ne_nil m)
  · refine ⟨preJoin ((splitOnDot m).take ((splitOnDot m).length - 2)), a, tail, rfl, rfl, ?_⟩
    rw [suffixName, if_pos rfl]
    simp only [hd, applyHead, counterSuffix]
    rw [joinDot_append_cons]

theorem append_cancel_of_eq {α : Type} {x y t : List α} (h : x ++ t = y ++ t) : x = y := by
  have hl : x.length = y.length := by
    have := congrArg List.length h
    simp at this
    omega
  exact (List.append_inj h hl).1

/-- The counter attachment is injective in the counter, for a fixed name. -/
theorem suffixName_inj_counter (hasExt : Bool) (m : Str) {k k' : Nat}
    (h : suffixName hasExt m k = suffixName hasExt m k') : k = k' := by
  cases hasExt with
  | false =>
    rw [suffixName, suffixName] at h
    simp only [if_neg (by simp : ¬ false = true), counterSuffix] at h
    have h2 := List.append_cancel_left h
    exact pad3_injective (by simpa using h2)
  | true =>
    rcases suffixName_decomp m k with ⟨pre, a, tail, hdrop, hpre, heq⟩
    rcases suffixName_decomp m k' with ⟨pre', a', tail', hdrop', hpre', heq'⟩
    rw [hdrop] at hdrop'
    have ha : a = a' := by injection hdrop' with h1 h2
    have ht : tail = tail' := by injection hdrop' with h1 h2
    have hp : pre = pre' := by rw [hpre, hpre']
    rw [heq, heq', ← ha, ← ht, ← hp] at h
    have h2 : pad3 k = pad3 k' := by simpa [List.append_assoc] using h
    exact pad3_injective h2

theorem suffixName_ne_nil (hasExt : Bool) (m : Str) (k : Nat) :
    suffixName hasExt m k ≠ [] := by
  cases hasExt with
  | false =>
    rw [suffixName]
    simp [counterSuffix]
  | true =>
    rcases suffixName_decomp m k with ⟨pre, a, tail, hdrop, hpre, heq⟩
    rw [heq]
    simp

theorem mem_splitOnDot (m : Str) : ∀ s ∈ splitOnDot m, ∀ c ∈ s, c ∈ m := by
  induction m with
  | nil =>
    intro s hs c hc
    simp [splitOnDot] at hs
    subst hs
    simp at hc
  | cons ch rest ih =>
    intro s hs c hc
    rw [splitOnDot] at hs
    by_cases h : ch = '.'
    · rw [if_pos h] at hs
      rcases List.mem_cons.mp hs with h' | h'
      · subst h'; simp at hc
      · exact List.mem_cons_of_mem ch (ih s h' c hc)
    · rw [if_neg h] at hs
      rcases hsplit : splitOnDot rest with _ | ⟨s0, ss⟩
      · exact absurd hsplit (splitOnDot_ne_nil rest)
      · rw [hsplit] at hs
        rcases List.mem_cons.mp hs with h' | h'
        · subst h'
          rcases List.mem_cons.mp hc with h'' | h''
          · exact h'' ▸ List.mem_cons_self ch rest
          · exact List.mem_cons_of_mem ch (ih s0 (hsplit ▸ List.mem_cons_self s0 ss) c h'')
        · exact List.mem_cons_of_mem ch (ih s (hsplit ▸ List.mem_cons_of_mem s0 h') c hc)

theorem mem_dotTail (l : List Str) : ∀ c ∈ dotTail l, (∃ s ∈ l, c ∈ s) ∨ c = '.' := by
  intro c hc
  rw [dotTail] at hc
  rcases List.mem_flatten.mp hc with ⟨piece, hp, hcp⟩
  rcases List.mem_map.mp hp with ⟨s, hs, rfl⟩
  rcases List.mem_cons.mp hcp with h | h
  · exact Or.inr h
  · exact Or.inl ⟨s, hs, h⟩

theorem mem_preJoin (l : List Str) : ∀ c ∈ preJoin l, (∃ s ∈ l, c ∈ s) ∨ c = '.' := by
  intro c hc
  rw [preJoin] at hc
  rcases List.mem_flatten.mp hc with ⟨piece, hp, hcp⟩
  rcases List.mem_map.mp hp with ⟨s, hs, rfl⟩
  rcases List.mem_append.mp hcp with h | h
  · exact Or.inl ⟨s, hs, h⟩
  · exact Or.inr (by simpa using h)

/-- Characters of a suffixed name come from the original name, the dot, the
underscore, or a decimal digit. -/
theorem mem_suffixName (hasExt : Bool) (m : Str) (k : Nat) :
    ∀ c ∈ suffixName hasExt m k,
      c ∈ m ∨ c = '.' ∨ c = '_' ∨ ∃ d, d < 10 ∧ c = digitChar d := by
  intro c hc
  cases hasExt with
  | false =>
    rw [suffixName] at hc
    simp only [if_neg (by simp : ¬ false = true), counterSuffix] at hc
    rcases List.mem_append.mp hc with h | h
    · exact Or.inl h
    · rcases List.mem_cons.mp h with h' | h'
      · exact Or.inr (Or.inr (Or.inl h'))
      · exact Or.inr (Or.inr (Or.inr (mem_pad3 k c h')))
  | true =>
    rcases suffixName_decomp m k with ⟨pre, a, tail, hdrop, hpre, heq⟩
    rw [heq] at hc
    have hmemdrop : ∀ s ∈ a :: tail, ∀ x ∈ s, x ∈ m := by
      intro s hs x hx
      have : s ∈ splitOnDot m := (List.drop_sublist _ _).mem (hdrop ▸ hs)
      exact mem_splitOnDot m s this x hx
    rcases List.mem_append.mp hc with h | h
    · rcases List.mem_append.mp h with h' | h'
      · rw [hpre] at h'
        rcases mem_preJoin _ c h' with ⟨s, hs, hcs⟩ | h''
        · exact Or.inl (mem_splitOnDot m s ((List.take_sublist _ _).mem hs) c hcs)
        · exact Or.inr (Or.inl h'')
      · rcases List.mem_append.mp h' with h'' | h''
        · exact Or.inl (hmemdrop a (List.mem_cons_self a tail) c h'')
        · rcases List.mem_cons.mp h'' with h3 | h3
          · exact Or.inr (Or.inr (Or.inl h3))
          · exact Or.inr (Or.inr (Or.inr (mem_pad3 k c h3)))
    · rcases mem_dotTail tail c h with ⟨s, hs, hcs⟩ | h''
      · exact Or.inl (hmemdrop s (List.mem_cons_of_mem a hs) c hcs)
      · exact Or.inr (Or.inl h'')

theorem digitChar_not_banned (d : Nat) (h : d < 10) : digitChar d ∉ bannedSet := by
  interval_cases d <;> decide

/-- Suffixing preserves filesystem safety. -/
theorem okName_suffixName (hasExt : Bool) (m : Str) (k : Nat) (h : okName m = true) :
    okName (suffixName hasExt m k) = true := by
  rw [okName, Bool.and_eq_true, List.all_eq_true]
  constructor
  · simpa [List.isEmpty_iff] using suffixName_ne_nil hasExt m k
  · intro c hc
    rcases mem_suffixName hasExt m k c hc with h' | h' | h' | ⟨d, hd, rfl⟩
    · rw [okName, Bool.and_eq_true, List.all_eq_true] at h
      exact h.2 c h'
    · subst h'; decide
    · subst h'; decide
    · simpa using digitChar_not_banned d hd

theorem getD_mem_of_lt (l : List Str) (i : Nat) (hi : i < l.length) : l.getD i [] ∈ l := by
  rw [List.getD_eq_getElem?_getD, List.getElem?_eq_getElem hi]
  simp only [Option.getD_some]
  exact List.getElem_mem hi

/-- Pointwise description of `make_unique_names`: a position whose
sanitized name recurs gets its occurrence counter attached, every other
position keeps its sanitized name. -/
theorem make_unique_names_getD (cc : CharClass) (names : List Str) (hasExt : Bool)
    (i : Nat) (hi : i < names.length) :
    (make_unique_names cc names hasExt).getD i [] =
      (if 2 ≤ (names.map (title_to_filename cc)).count ((names.map (title_to_filename cc)).getD i []) then
        suffixedAt hasExt (names.map (title_to_filename cc)) i
      else (names.map (title_to_filename cc)).getD i []) := by
  rw [make_unique_names]
  set sn := names.map (title_to_filename cc) with hsn
  have hisn : i < sn.length := by rw [hsn]; simpa using hi
  by_cases hall : sn.all (fun n => decide (sn.count n ≤ 1))
  · simp only [if_pos hall]
    have hmem := getD_mem_of_lt sn i hisn
    have hle : sn.count (sn.getD i []) ≤ 1 := by
      have := List.all_eq_true.mp hall _ hmem
      simpa using this
    rw [if_neg (by omega)]
  · simp only [if_neg hall]
    rw [munLoop_getD hasExt _ _ sn i hisn]
    by_cases hdup : 2 ≤ sn.count (sn.getD i [])
    · rw [if_pos (by simpa using hdup), if_pos hdup]
      rw [suffixedAt, occValue]
    · rw [if_neg (by simpa using hdup), if_neg hdup]

theorem count_take_succ_self (l : List Str) (i : Nat) (hi : i < l.length) :
    (l.take (i + 1)).count (l.getD i []) = (l.take i).count (l.getD i []) + 1 := by
  have hgd : l.getD i [] = l[i] := by
    rw [List.getD_eq_getElem?_getD, List.getElem?_eq_getElem hi]
    rfl
  rw [hgd, List.take_succ, List.getElem?_eq_getElem hi, List.count_append]
  simp

theorem count_take_le_of_le (l : List Str) (x : Str) {i j : Nat} (hij : i ≤ j) :
    (l.take i).count x ≤ (l.take j).count x := by
  have h1 : l.take i = (l.take j).take i := by rw [List.take_take, Nat.min_eq_left hij]
  rw [h1]
  exact (List.take_sublist i (l.take j)).count_le x

/-- Strict growth of the occurrence counter between two positions of the
same sanitized name. -/
theorem count_take_strict (l : List Str) {i j : Nat} (hij : i < j) (hj : j < l.length) :
    (l.take i).count (l.getD i []) < (l.take j).count (l.getD i []) := by
  have hi : i < l.length := lt_trans hij hj
  have h1 : (l.take (i + 1)).count (l.getD i []) = (l.take i).count (l.getD i []) + 1 :=
    count_take_succ_self l i hi
  have h2 : (l.take (i + 1)).count (l.getD i []) ≤ (l.take j).count (l.getD i []) :=
    count_take_le_of_le l _ hij
  omega

/-- Two distinct positions holding the same value force a recurring count. -/
theorem two_positions_two_le_count (l : List Str) {i j : Nat} (hij : i < j) (hj : j < l.length)
    (heq : l.getD i [] = l.getD j []) : 2 ≤ l.count (l.getD i []) := by
  have hi : i < l.length := lt_trans hij hj
  have h1 : (l.take (i + 1)).count (l.getD i []) = (l.take i).count (l.getD i []) + 1 :=
    count_take_succ_self l i hi
  have h2 : (l.take (j + 1)).count (l.getD j []) = (l.take j).count (l.getD j []) + 1 :=
    count_take_succ_self l j hj
  have h3 : (l.take (i + 1)).count (l.getD i []) ≤ (l.take j).count (l.getD i []) :=
    count_take_le_of_le l _ hij
  have h4 : (l.take (j + 1)).count (l.getD i []) ≤ l.count (l.getD i []) :=
    (List.take_sublist (j + 1) l).count_le _
  rw [← heq] at h2
  omega

/-- Conditional distinctness of `make_unique_names` output: distinct as
long as no suffixed variant collides with a once-occurring sanitized name
(`H2`) or with a suffixed variant of a different duplicated name (`H1`). -/
theorem make_unique_names_nodup (cc : CharClass) (names : List Str) (hasExt : Bool)
    (H1 : ∀ i, i < names.length → ∀ j, j < names.length →
      2 ≤ (names.map (title_to_filename cc)).count ((names.map (title_to_filename cc)).getD i []) →
      2 ≤ (names.map (title_to_filename cc)).count ((names.map (title_to_filename cc)).getD j []) →
      (names.map (title_to_filename cc)).getD i [] ≠ (names.map (title_to_filename cc)).getD j [] →
      suffixedAt hasExt (names.map (title_to_filename cc)) i ≠ suffixedAt hasExt (names.map (title_to_filename cc)) j)
    (H2 : ∀ i, i < names.length → ∀ j, j < names.length →
      2 ≤ (names.map (title_to_filename cc)).count ((names.map (title_to_filename cc)).getD i []) →
      (names.map (title_to_filename cc)).count ((names.map (title_to_filename cc)).getD j []) = 1 →
      suffixedAt hasExt (names.map (title_to_filename cc)) i ≠ (names.map (title_to_filename cc)).getD j []) :
    (make_unique_names cc names hasExt).Nodup := by
  set sn := names.map (title_to_filename cc) with hsn
  have hlen : (make_unique_names cc names hasExt).length = names.length :=
    make_unique_names_length cc names hasExt
  have hsnlen : sn.length = names.length := by rw [hsn]; simp
  refine List.pairwise_iff_get.mpr ?_
  intro fi fj hij
  set i := fi.1 with hi1
  set j := fj.1 with hj1
  have hi : i < names.length := by rw [hi1, ← hlen]; exact fi.2
  have hj : j < names.length := by rw [hj1, ← hlen]; exact fj.2
  have hgi : (make_unique_names cc names hasExt).get fi = (make_unique_names cc names hasExt).getD i [] := by
    rw [List.getD_eq_getElem?_getD, List.getElem?_eq_getElem (by rw [hlen]; exact hi)]
    simp [List.get_eq_getElem]
  have hgj : (make_unique_names cc names hasExt).get fj = (make_unique_names cc names hasExt).getD j [] := by
    rw [List.getD_eq_getElem?_getD, List.getElem?_eq_getElem (by rw [hlen]; exact hj)]
    simp [List.get_eq_getElem]
  rw [hgi, hgj, make_unique_names_getD cc names hasExt i hi, make_unique_names_getD cc names hasExt j hj]
  rw [← hsn]
  have hij' : i < j := hij
  by_cases hdi : 2 ≤ sn.count (sn.getD i [])
  · by_cases hdj : 2 ≤ sn.count (sn.getD j [])
    · rw [if_pos hdi, if_pos hdj]
      by_cases hbase : sn.getD i [] = sn.getD j []
      · intro hcontra
        rw [suffixedAt, suffixedAt, ← hbase] at hcontra
        have hk := suffixName_inj_counter hasExt (sn.getD i []) hcontra
        rw [occValue, occValue, ← hbase] at hk
        have := count_take_strict sn hij' (by rw [hsnlen]; exact hj)
        omega
      · exact H1 i hi j hj hdi hdj hbase
    · rw [if_pos hdi, if_neg hdj]
      have hmem : sn.getD j [] ∈ sn := getD_mem_of_lt sn j (by rw [hsnlen]; exact hj)
      have hpos : 0 < sn.count (sn.getD j []) := List.count_pos_iff.mpr hmem
      exact H2 i hi j hj hdi (by omega)
  · by_cases hdj : 2 ≤ sn.count (sn.getD j [])
    · rw [if_neg hdi, if_pos hdj]
      have hmem : sn.getD i [] ∈ sn := getD_mem_of_lt sn i (by rw [hsnlen]; exact hi)
      have hpos : 0 < sn.count (sn.getD i []) := List.count_pos_iff.mpr hmem
      exact fun h => H2 j hj i hi hdj (by omega) h.symm
    · rw [if_neg hdi, if_neg hdj]
      intro hcontra
      exact hdi (two_positions_two_le_count sn hij' (by rw [hsnlen]; exact hj) hcontra)

theorem munLoop_all_okName (hasExt : Bool) (dup : Str → Bool) (suf : Str → Nat) (l : List Str)
    (h : ∀ n ∈ l, okName n = true) : ∀ m ∈ munLoop hasExt dup suf l, okName m = true := by
  induction l generalizing suf with
  | nil => intro m hm; simp [munLoop] at hm
  | cons n rest ih =>
    intro m hm
    rw [munLoop] at hm
    by_cases hd : dup n
    · rw [if_pos hd] at hm
      rcases List.mem_cons.mp hm with h' | h'
      · exact h' ▸ okName_suffixName hasExt n (suf n) (h n (List.mem_cons_self n rest))
      · exact ih (bumpCounter suf n) (fun x hx => h x (List.mem_cons_of_mem n hx)) m h'
    · rw [if_neg hd] at hm
      rcases List.mem_cons.mp hm with h' | h'
      · exact h' ▸ h n (List.mem_cons_self n rest)
      · exact ih suf (fun x hx => h x (List.mem_cons_of_mem n hx)) m h'

/-- Every name `make_unique_names` returns is non-empty and free of banned
characters, whatever the input was. -/
theorem make_unique_names_all_okName (cc : CharClass) (names : List Str) (hasExt : Bool) :
    (make_unique_names cc names hasExt).all okName = true := by
  rw [make_unique_names]
  have hsn : ∀ n ∈ names.map (title_to_filename cc), okName n = true := by
    intro n hn
    rcases List.mem_map.mp hn with ⟨t, _, rfl⟩
    exact okName_title_to_filename cc t
  by_cases hall : (names.map (title_to_filename cc)).all
      (fun n => decide ((names.map (title_to_filename cc)).count n ≤ 1))
  · simp only [if_pos hall]
    exact List.all_eq_true.mpr hsn
  · simp only [if_neg hall]
    exact List.all_eq_true.mpr (munLoop_all_okName hasExt _ _ _ hsn)

theorem FS.Le.refl (a : FS) : FS.Le a a := ⟨fun _ h => h, fun _ h => h⟩

theorem FS.Le.trans {a b c : FS} (h1 : FS.Le a b) (h2 : FS.Le b c) : FS.Le a c :=
  ⟨fun e he => h2.1 e (h1.1 e he), fun d hd => h2.2 d (h1.2 d hd)⟩

theorem FS.addDir_le (fs : FS) (q : FsPath) : FS.Le fs (fs.addDir q) := by
  rw [FS.addDir]
  by_cases h : fs.isDir q
  · rw [if_pos h]; exact FS.Le.refl fs
  · rw [if_neg h]
    exact ⟨fun e he => he, fun d hd => List.mem_cons_of_mem q hd⟩

theorem FS.mkdirParents_le (fs : FS) (p : FsPath) : FS.Le fs (fs.mkdirParents p) := by
  rw [FS.mkdirParents]
  generalize pathPrefixes p = l
  induction l generalizing fs with
  | nil => exact FS.Le.refl fs
  | cons q rest ih => exact FS.Le.trans (FS.addDir_le fs q) (ih (fs.addDir q))

theorem FS.createFile_le (fs : FS) (p : FsPath) (data : Str) : FS.Le fs (fs.createFile p data) :=
  ⟨fun e he => List.mem_cons_of_mem _ he, fun d hd => hd⟩

theorem FS.isFile_mono {a b : FS} (h : FS.Le a b) (p : FsPath) (hp : a.isFile p = true) :
    b.isFile p = true := by
  rw [FS.isFile, List.any_eq_true] at *
  rcases hp with ⟨e, he, hep⟩
  exact ⟨e, h.1 e he, hep⟩

theorem FS.isDir_mono {a b : FS} (h : FS.Le a b) (p : FsPath) (hp : a.isDir p = true) :
    b.isDir p = true := by
  rw [FS.isDir, List.any_eq_true] at *
  rcases hp with ⟨q, hq, hqp⟩
  exact ⟨q, h.2 q hq, hqp⟩

theorem FS.existsPath_mono {a b : FS} (h : FS.Le a b) (p : FsPath)
    (hp : a.existsPath p = true) : b.existsPath p = true := by
  rw [FS.existsPath, Bool.or_eq_true] at *
  rcases hp with h' | h'
  · exact Or.inl (FS.isFile_mono h p h')
  · exact Or.inr (FS.isDir_mono h p h')

theorem FS.childNames_subset {a b : FS} (h : FS.Le a b) (p : FsPath) :
    ∀ x ∈ a.childNames p, x ∈ b.childNames p := by
  intro x hx
  rw [FS.childNames] at *
  rcases List.mem_filterMap.mp hx with ⟨q, hq, hqx⟩
  refine List.mem_filterMap.mpr ⟨q, ?_, hqx⟩
  rw [FS.entryPaths, List.mem_append] at *
  rcases hq with h' | h'
  · rcases List.mem_map.mp h' with ⟨e, he, rfl⟩
    exact Or.inl (List.mem_map.mpr ⟨e, h.1 e he, rfl⟩)
  · exact Or.inr (h.2 q h')

theorem dedup_length_le_of_subset (l1 l2 : List Str) (h : ∀ x ∈ l1, x ∈ l2) :
    l1.dedup.length ≤ l2.dedup.length := by
  rw [← List.card_toFinset, ← List.card_toFinset]
  apply Finset.card_le_card
  intro x hx
  exact List.mem_toFinset.mpr (h x (List.mem_toFinset.mp hx))

theorem FS.listdirLen_mono {a b : FS} (h : FS.Le a b) (p : FsPath) :
    a.listdirLen p ≤ b.listdirLen p :=
  dedup_length_le_of_subset _ _ (FS.childNames_subset h p)

theorem FS.mkdirParents_files (fs : FS) (p : FsPath) : (fs.mkdirParents p).files = fs.files := by
  rw [FS.mkdirParents]
  generalize pathPrefixes p = l
  induction l generalizing fs with
  | nil => rfl
  | cons q rest ih =>
    rw [List.foldl_cons, ih (fs.addDir q)]
    rw [FS.addDir]
    by_cases h : fs.isDir q
    · rw [if_pos h]
    · rw [if_neg h]

theorem FS.mkdirParents_isFile (fs : FS) (p q : FsPath) :
    (fs.mkdirParents p).isFile q = fs.isFile q := by
  rw [FS.isFile, FS.isFile, FS.mkdirParents_files]

theorem writeStep_le (fs : FS) (p : FsPath) (data? : Option Str) :
    FS.Le fs (writeStep fs p data?).1 := by
  have h1 : FS.Le fs (fs.mkdirParents p.dropLast) := FS.mkdirParents_le fs p.dropLast
  rw [writeStep.eq_def]
  by_cases h : (fs.mkdirParents p.dropLast).existsPath p
  · simp only [if_pos h]
    exact h1
  · simp only [if_neg h]
    cases data? with
    | some d => exact FS.Le.trans h1 (FS.createFile_le _ p d)
    | none => exact FS.Le.trans h1 (FS.createFile_le _ p [])

theorem folderLoop_le (drive : Drive) (filepath : FsPath) (fs : FS)
    (l : List (DriveChild × Str)) : FS.Le fs (folderLoop drive filepath fs l).1 := by
  induction l generalizing fs with
  | nil => exact FS.Le.refl fs
  | cons e rest ih =>
    rcases e with ⟨child, childname⟩
    rw [folderLoop]
    by_cases hk : child.kind = "drive#file".data
    · simp only [if_pos hk]
      by_cases hex : (fs.mkdirParents filepath).existsPath (filepath ++ [childname])
      · simp only [if_pos hex]
        exact FS.mkdirParents_le fs filepath
      · simp only [if_neg hex]
        exact FS.Le.trans (FS.mkdirParents_le fs filepath)
          (FS.Le.trans (FS.createFile_le _ _ _) (ih _))
    · simp only [if_neg hk]
      exact ih fs

theorem download_file_le (cc : CharClass) (drive : Drive) (mt : MimeTypes) (m : Material)
    (filepath : FsPath) (fs : FS) : FS.Le fs (download_file cc drive mt m filepath fs).1 := by
  rw [download_file]
  by_cases h1 : m.size.isSome
  · simp only [if_pos h1]
    exact writeStep_le fs filepath _
  · simp only [if_neg h1]
    by_cases h2 : keyMem m.mimeType m.exportLinks
    · simp only [if_pos h2]
      by_cases h3 : (drive.httpGet (lookupStr m.mimeType m.exportLinks)).1 = m.mimeType
      · simp only [if_pos h3]
        exact writeStep_le fs filepath _
      · simp only [if_neg h3]
        exact writeStep_le fs filepath none
    · simp only [if_neg h2]
      by_cases h4 : m.mimeType = folderMime
      · simp only [if_pos h4]
        exact folderLoop_le drive filepath fs _
      · simp only [if_neg h4]
        cases hexp : drive.exportMedia m.ID m.mimeType with
        | none => exact FS.Le.refl fs
        | some data => exact writeStep_le fs filepath _

theorem downloadMats_le (cc : CharClass) (drive : Drive) (mt : MimeTypes) (cdir wdir : Str)
    (fs : FS) (l : List Material) : FS.Le fs (downloadMats cc drive mt cdir wdir fs l).1 := by
  induction l generalizing fs with
  | nil => exact FS.Le.refl fs
  | cons m rest ih =>
    rw [downloadMats]
    by_cases hd : m.downloaded
    · simp only [if_pos hd]
      exact ih fs
    · simp only [if_neg hd]
      have h1 := download_file_le cc drive mt m [cdir, wdir, m.filename] fs
      cases hout : (download_file cc drive mt m [cdir, wdir, m.filename] fs).2.2 with
      | exc => simpa [hout] using h1
      | ok =>
        simp only [hout]
        exact FS.Le.trans h1 (ih _)

theorem downloadCWMs_le (cc : CharClass) (drive : Drive) (mt : MimeTypes) (cdir : Str)
    (fs : FS) (l : List CourseWorkMaterial) : FS.Le fs (downloadCWMs cc drive mt cdir fs l).1 := by
  induction l generalizing fs with
  | nil => exact FS.Le.refl fs
  | cons w rest ih =>
    rw [downloadCWMs]
    have h1 := downloadMats_le cc drive mt cdir w.dirname fs w.materials
    cases hout : (downloadMats cc drive mt cdir w.dirname fs w.materials).2.2 with
    | exc => simpa [hout] using h1
    | ok =>
      simp only [hout]
      exact FS.Le.trans h1 (ih _)

theorem downloadCourses_le (cc : CharClass) (drive : Drive) (mt : MimeTypes)
    (fs : FS) (l : List Course) : FS.Le fs (downloadCourses cc drive mt fs l).1 := by
  induction l generalizing fs with
  | nil => exact FS.Le.refl fs
  | cons c rest ih =>
    rw [downloadCourses]
    have h1 := downloadCWMs_le cc drive mt c.dirname fs c.courseWorkMaterials
    cases hout : (downloadCWMs cc drive mt c.dirname fs c.courseWorkMaterials).2.2 with
    | exc => simpa [hout] using h1
    | ok =>
      simp only [hout]
      exact FS.Le.trans h1 (ih _)

theorem download_missing_files_le (cc : CharClass) (drive : Drive) (mt : MimeTypes)
    (courses : List Course) (fs : FS) : FS.Le fs (download_missing_files cc drive mt courses fs).1 :=
  downloadCourses_le cc drive mt fs courses

theorem fastCond_mono {fs0 fs1 : FS} (h : FS.Le fs0 fs1) (cdir : Str) (w : CourseWorkMaterial)
    (hf : fastCond fs0 cdir w = true) : fastCond fs1 cdir w = true := by
  rw [fastCond, Bool.and_eq_true] at *
  refine ⟨FS.isDir_mono h _ hf.1, ?_⟩
  have h1 := FS.listdirLen_mono h [cdir, w.dirname]
  have h2 : w.materials.length ≤ fs0.listdirLen [cdir, w.dirname] := by
    have := hf.2
    simpa using this
  simp
  omega

theorem processGroup_untouched (cc : CharClass) (drive : Drive) (mt : MimeTypes) (fs : FS)
    (cdir : Str) (w : CourseWorkMaterial) (h : w.materials.all (fun m => m.downloaded) = true) :
    processGroup cc drive mt fs cdir w = (w, [], 0) := by
  rw [processGroup]
  have hany : w.materials.any (fun m => !m.downloaded) = false := by
    rw [List.any_eq_false]
    intro m hm
    simp [List.all_eq_true.mp h m hm]
  rw [hany]
  simp

theorem setGroupFlags_all_of_fast (fs : FS) (cdir : Str) (w : CourseWorkMaterial)
    (h : fastCond fs cdir w = true) :
    (setGroupFlags fs cdir w).materials.all (fun m => m.downloaded) = true := by
  rw [setGroupFlags]
  rw [List.all_eq_true]
  intro m hm
  rcases List.mem_map.mp hm with ⟨m0, _, rfl⟩
  simpa using h

/-- Characterization of `assign_dir_and_file_names` as a per-group map
over the named catalog. -/
theorem planner_eq (cc : CharClass) (drive : Drive) (mt : MimeTypes)
    (courses : List Course) (fs : FS) :
    assign_dir_and_file_names cc drive mt courses fs =
      ((stageNames cc courses).map (fun c =>
        { c with courseWorkMaterials :=
            c.courseWorkMaterials.map (fun w => (planGroup cc drive mt fs c.dirname w).1) }),
       ((stageNames cc courses).map (fun c =>
        (c.courseWorkMaterials.map (fun w => (planGroup cc drive mt fs c.dirname w).2.2)).sum)).sum) := by
  rw [assign_dir_and_file_names, stageFlags]
  rw [List.map_map, List.map_map]
  simp only [Prod.mk.injEq]
  constructor
  · apply List.map_congr_left
    intro c _
    simp [planGroup, setGroupFlags, List.map_map, Function.comp_def]
  · congr 1
    simp only [List.map_map]
    apply List.map_congr_left
    intro c _
    simp [planGroup, setGroupFlags, List.map_map, Function.comp_def]

theorem downloadMats_all_done (cc : CharClass) (drive : Drive) (mt : MimeTypes)
    (cdir wdir : Str) (fs : FS) (l : List Material)
    (h : l.all (fun m => m.downloaded) = true) :
    downloadMats cc drive mt cdir wdir fs l = (fs, 0, DLOut.ok) := by
  induction l with
  | nil => rfl
  | cons m rest ih =>
    rw [downloadMats]
    rw [List.all_cons, Bool.and_eq_true] at h
    rw [if_pos h.1]
    exact ih h.2

theorem downloadCWMs_all_done (cc : CharClass) (drive : Drive) (mt : MimeTypes)
    (cdir : Str) (fs : FS) (l : List CourseWorkMaterial)
    (h : l.all (fun w => w.materials.all (fun m => m.downloaded)) = true) :
    downloadCWMs cc drive mt cdir fs l = (fs, 0, DLOut.ok) := by
  induction l with
  | nil => rfl
  | cons w rest ih =>
    rw [downloadCWMs]
    rw [List.all_cons, Bool.and_eq_true] at h
    rw [downloadMats_all_done cc drive mt cdir w.dirname fs w.materials h.1]
    simpa using ih h.2

theorem downloadCourses_all_done (cc : CharClass) (drive : Drive) (mt : MimeTypes)
    (fs : FS) (l : List Course)
    (h : l.all (fun c => c.courseWorkMaterials.all (fun w => w.materials.all (fun m => m.downloaded))) = true) :
    downloadCourses cc drive mt fs l = (fs, 0, DLOut.ok) := by
  induction l with
  | nil => rfl
  | cons c rest ih =>
    rw [downloadCourses]
    rw [List.all_cons, Bool.and_eq_true] at h
    rw [downloadCWMs_all_done cc drive mt c.dirname fs c.courseWorkMaterials h.1]
    simpa using ih h.2

theorem setGroupFlags_dirname (fs : FS) (cdir : Str) (w : CourseWorkMaterial) :
    (setGroupFlags fs cdir w).dirname = w.dirname := rfl

/-- A group that was fully planned against `fs0` and whose pending files
were all materialized into `fs1 ⊇ fs0` is planned fully-downloaded against
`fs1`, with nothing left to download. -/
theorem planGroup_second_run (cc : CharClass) (drive : Drive) (mt : MimeTypes)
    {fs0 fs1 : FS} (hle : FS.Le fs0 fs1) (cdir : Str) (w : CourseWorkMaterial)
    (H : (planGroup cc drive mt fs0 cdir w).1.materials.all
          (fun m => m.downloaded || fs1.isFile [cdir, w.dirname, m.filename]) = true) :
    (planGroup cc drive mt fs1 cdir w).1.materials.all (fun m => m.downloaded) = true ∧
    (planGroup cc drive mt fs1 cdir w).2.2 = 0 := by
  by_cases hfast0 : fastCond fs0 cdir w = true
  · have hfast1 := fastCond_mono hle cdir w hfast0
    have hall1 := setGroupFlags_all_of_fast fs1 cdir w hfast1
    rw [planGroup, processGroup_untouched cc drive mt fs1 cdir _ hall1]
    exact ⟨hall1, rfl⟩
  · rcases hml : w.materials with _ | ⟨m0, mrest⟩
    · have hmat1 : (setGroupFlags fs1 cdir w).materials = [] := by
        rw [setGroupFlags]
        simp [hml]
      have hall1 : (setGroupFlags fs1 cdir w).materials.all (fun m => m.downloaded) = true := by
        rw [hmat1]
        rfl
      rw [planGroup, processGroup_untouched cc drive mt fs1 cdir _ hall1]
      exact ⟨hall1, rfl⟩
    · -- slow path on the first run, non-empty group
      have hfc0 : fastCond fs0 cdir w = false := by
        exact Bool.not_eq_true _ ▸ (Bool.eq_false_iff.mpr hfast0)
      have hmats0 : (setGroupFlags fs0 cdir w).materials =
          w.materials.map (fun m => { m with downloaded := false }) := by
        rw [setGroupFlags]
        apply List.map_congr_left
        intro m _
        rw [hfc0]
      have hany0 : (setGroupFlags fs0 cdir w).materials.any (fun m => !m.downloaded) = true := by
        rw [hmats0, hml, List.map_cons, List.any_cons]
        simp
      have hplan0 : (planGroup cc drive mt fs0 cdir w).1.materials =
          (assign_file_names cc drive mt (setGroupFlags fs0 cdir w).materials).map
            (fun m => { m with downloaded := fs0.isFile [cdir, w.dirname, m.filename] }) := by
        rw [planGroup, processGroup, if_pos hany0]
        simp [setGroupFlags_dirname]
      -- every refreshed material's planned file is present in fs1
      have hkey : ∀ a ∈ assign_file_names cc drive mt (setGroupFlags fs0 cdir w).materials,
          fs1.isFile [cdir, w.dirname, a.filename] = true := by
        intro a ha
        have hb := List.all_eq_true.mp (hplan0 ▸ H) _ (List.mem_map.mpr ⟨a, ha, rfl⟩)
        rw [Bool.or_eq_true] at hb
        rcases hb with hb | hb
        · exact FS.isFile_mono hle _ hb
        · exact hb
      by_cases hfast1 : fastCond fs1 cdir w = true
    -- fast on the second run
      · have hall1 := setGroupFlags_all_of_fast fs1 cdir w hfast1
        rw [planGroup, processGroup_untouched cc drive mt fs1 cdir _ hall1]
        exact ⟨hall1, rfl⟩
    -- slow on the second run as well
      · have hfc1 : fastCond fs1 cdir w = false := by
          exact Bool.not_eq_true _ ▸ (Bool.eq_false_iff.mpr hfast1)
        have hmats1 : (setGroupFlags fs1 cdir w).materials =
            w.materials.map (fun m => { m with downloaded := false }) := by
          rw [setGroupFlags]
          apply List.map_congr_left
          intro m _
          rw [hfc1]
        have hsame : (setGroupFlags fs1 cdir w).materials = (setGroupFlags fs0 cdir w).materials := by
          rw [hmats0, hmats1]
        have hany1 : (setGroupFlags fs1 cdir w).materials.any (fun m => !m.downloaded) = true := by
          rw [hsame]
          exact hany0
        have hplan1 : (planGroup cc drive mt fs1 cdir w).1.materials =
            (assign_file_names cc drive mt (setGroupFlags fs0 cdir w).materials).map
              (fun m => { m with downloaded := fs1.isFile [cdir, w.dirname, m.filename] }) := by
          rw [planGroup, processGroup, if_pos hany1, hsame]
          simp [setGroupFlags_dirname]
        constructor
        · rw [hplan1, List.all_eq_true]
          intro b hb
          rcases List.mem_map.mp hb with ⟨a, ha, rfl⟩
          simpa using hkey a ha
        · rw [planGroup, processGroup, if_pos hany1, hsame]
          simp only [setGroupFlags_dirname]
          rw [List.countP_eq_zero]
          intro b hb
          rcases List.mem_map.mp hb with ⟨a, ha, rfl⟩
          simpa using hkey a ha

theorem planGroup_dirname (cc : CharClass) (drive : Drive) (mt : MimeTypes) (fs : FS)
    (cdir : Str) (w : CourseWorkMaterial) :
    (planGroup cc drive mt fs cdir w).1.dirname = w.dirname := by
  rw [planGroup, processGroup]
  by_cases h : (setGroupFlags fs cdir w).materials.any (fun m => !m.downloaded) = true
  · rw [if_pos h]
    exact setGroupFlags_dirname fs cdir w
  · rw [if_neg h]
    exact setGroupFlags_dirname fs cdir w

/-- Catalog-level second-run lemma: with the filesystem grown from `fs0`
to `fs1` and every pending planned file materialized, the re-planned
catalog is fully downloaded and has zero files to download. -/
theorem planner_second_run (cc : CharClass) (drive : Drive) (mt : MimeTypes)
    (courses : List Course) {fs0 fs1 : FS} (hle : FS.Le fs0 fs1)
    (H : allPendingMaterialized (assign_dir_and_file_names cc drive mt courses fs0).1 fs1 = true) :
    allDownloaded (assign_dir_and_file_names cc drive mt courses fs1).1 = true ∧
    (assign_dir_and_file_names cc drive mt courses fs1).2 = 0 := by
  rw [planner_eq cc drive mt courses fs0] at H
  rw [planner_eq cc drive mt courses fs1]
  rw [allPendingMaterialized, List.all_eq_true] at H
  constructor
  · rw [allDownloaded, List.all_eq_true]
    intro c' hc'
    rcases List.mem_map.mp hc' with ⟨c, hc, rfl⟩
    simp only [List.all_eq_true]
    intro w' hw'
    rcases List.mem_map.mp hw' with ⟨w, hw, rfl⟩
    have Hc := H _ (List.mem_map.mpr ⟨c, hc, rfl⟩)
    simp only [List.all_eq_true] at Hc
    have Hw := Hc _ (List.mem_map.mpr ⟨w, hw, rfl⟩)
    have Hg : (planGroup cc drive mt fs0 c.dirname w).1.materials.all
        (fun m => m.downloaded || fs1.isFile [c.dirname, w.dirname, m.filename]) = true := by
      rw [List.all_eq_true]
      intro m hm
      have := Hw m hm
      rwa [planGroup_dirname] at this
    exact fun x hx => List.all_eq_true.mp (planGroup_second_run cc drive mt hle c.dirname w Hg).1 x hx
  · apply List.sum_eq_zero
    intro x hx
    rcases List.mem_map.mp hx with ⟨c, hc, rfl⟩
    apply List.sum_eq_zero
    intro y hy
    rcases List.mem_map.mp hy with ⟨w, hw, rfl⟩
    have Hc := H _ (List.mem_map.mpr ⟨c, hc, rfl⟩)
    simp only [List.all_eq_true] at Hc
    have Hw := Hc _ (List.mem_map.mpr ⟨w, hw, rfl⟩)
    have Hg : (planGroup cc drive mt fs0 c.dirname w).1.materials.all
        (fun m => m.downloaded || fs1.isFile [c.dirname, w.dirname, m.filename]) = true := by
      rw [List.all_eq_true]
      intro m hm
      have := Hw m hm
      rwa [planGroup_dirname] at this
    exact (planGroup_second_run cc drive mt hle c.dirname w Hg).2

theorem writeStep_exc_of_exists (fs : FS) (p : FsPath) (data? : Option Str)
    (h : fs.existsPath p = true) : (writeStep fs p data?).2 = DLOut.exc := by
  have h1 : (fs.mkdirParents p.dropLast).existsPath p = true :=
    FS.existsPath_mono (FS.mkdirParents_le fs p.dropLast) p h
  rw [writeStep.eq_def]
  simp only [if_pos h1]

/-- In the three branches of `download_file` that write to `filepath`
directly (known size, any export-link response, successful export
conversion), a pre-existing entry at `filepath` makes the call raise. -/
theorem download_file_exc_of_exists (cc : CharClass) (drive : Drive) (mt : MimeTypes)
    (m : Material) (filepath : FsPath) (fs : FS)
    (hex : fs.existsPath filepath = true)
    (hbr : m.size.isSome = true ∨ keyMem m.mimeType m.exportLinks = true ∨
      (m.mimeType ≠ folderMime ∧ (drive.exportMedia m.ID m.mimeType).isSome = true)) :
    (download_file cc drive mt m filepath fs).2.2 = DLOut.exc := by
  rw [download_file]
  by_cases h1 : m.size.isSome
  · simp only [if_pos h1]
    exact writeStep_exc_of_exists fs filepath _ hex
  · simp only [if_neg h1]
    by_cases h2 : keyMem m.mimeType m.exportLinks = true
    · simp only [if_pos h2]
      by_cases h3 : (drive.httpGet (lookupStr m.mimeType m.exportLinks)).1 = m.mimeType
      · simp only [if_pos h3]
        exact writeStep_exc_of_exists fs filepath _ hex
      · simp only [if_neg h3]
        exact writeStep_exc_of_exists fs filepath none hex
    · simp only [if_neg h2]
      rcases hbr with hb | hb | ⟨hne, hsome⟩
      · exact absurd hb h1
      · exact absurd hb h2
      · simp only [if_neg hne]
        cases hexp : drive.exportMedia m.ID m.mimeType with
        | none => rw [hexp] at hsome; simp at hsome
        | some data =>
          simp only []
          exact writeStep_exc_of_exists fs filepath _ hex

theorem getD_map_of_lt {α β : Type} (f : α → β) (l : List α) (i : Nat) (hi : i < l.length)
    (d : α) (d' : β) : (l.map f).getD i d' = f (l.getD i d) := by
  rw [List.getD_eq_getElem?_getD, List.getElem?_map, List.getElem?_eq_getElem hi]
  rw [List.getD_eq_getElem?_getD, List.getElem?_eq_getElem hi]
  rfl

/-- Access to one planned group of `assign_dir_and_file_names`: the group
at position `(i, j)` of the output is `planGroup` of the named group at
the same position. -/
theorem planner_group_getD (cc : CharClass) (drive : Drive) (mt : MimeTypes)
    (courses : List Course) (fs : FS) (i j : Nat)
    (hi : i < (stageNames cc courses).length)
    (hj : j < ((stageNames cc courses).getD i dummyCourse).courseWorkMaterials.length) :
    (((assign_dir_and_file_names cc drive mt courses fs).1.getD i dummyCourse).courseWorkMaterials.getD j dummyCWM) =
      (planGroup cc drive mt fs ((stageNames cc courses).getD i dummyCourse).dirname
        (((stageNames cc courses).getD i dummyCourse).courseWorkMaterials.getD j dummyCWM)).1 := by
  rw [planner_eq]
  rw [getD_map_of_lt _ (stageNames cc courses) i hi dummyCourse dummyCourse]
  exact getD_map_of_lt _ _ j hj dummyCWM dummyCWM

theorem zip_self_map {α β : Type} (l : List α) (f : α → β) :
    l.zip (l.map f) = l.map (fun a => (a, f a)) := by
  induction l with
  | nil => rfl
  | cons a t ih => simp [ih]

/-- C9: for every title string, `title_to_filename` returns a name that
contains none of the characters backslash, slash, angle brackets, pipe,
question mark, asterisk, colon or double quote, has length at most 200,
and is never empty (the "no_name" fallback applies when sanitization
leaves nothing). -/
theorem claim_C9_title_to_filename_safe (cc : CharClass) (title : Str) :
    (title_to_filename cc title).all (fun c => decide (c ∉ bannedSet)) = true ∧
    (title_to_filename cc title).length ≤ 200 ∧
    title_to_filename cc title ≠ [] := by
  refine ⟨?_, title_to_filename_length_le cc title, title_to_filename_ne_nil cc title⟩
  have h := okName_title_to_filename cc title
  rw [okName, Bool.and_eq_true] at h
  exact h.2

/-- C3 counterexample: on the title ".a" the code returns "a" (Python's
`strip('.')` removes periods from both ends), while the pipeline worded in
the claim (trailing periods only) returns ".a". -/
theorem claim_C3_counterexample :
    title_to_filename asciiCC (".a".data) = "a".data ∧
    title_to_filename_claimC3 asciiCC (".a".data) = ".a".data ∧
    title_to_filename asciiCC (".a".data) ≠ title_to_filename_claimC3 asciiCC (".a".data) := by
  refine ⟨by decide, by decide, by decide⟩

/-- C3 amended: `title_to_filename` equals the claim's pipeline with the
period trim applied to both ends — replace each non-printable character
by a space, each of the underscore set by an underscore, colon by hyphen,
double quote by apostrophe; trim surrounding whitespace, then leading and
trailing periods; truncate to 200; fall back to "no_name" when empty. -/
theorem claim_C3_amended_title_to_filename (cc : CharClass) (title : Str) :
    title_to_filename cc title = title_to_filename_amendedC3 cc title := rfl

/-- C2 counterexample: on the duplicate-bearing input
`["a:b", "a", "a", "a_001"]` (no extensions) the code returns
`["a-b", "a_001", "a_002", "a_001"]`: the names are not pairwise distinct
(positions 1 and 3 collide), and the name "a:b", whose sanitized form
"a-b" occurs only once, is not returned unchanged. -/
theorem claim_C2_counterexample :
    make_unique_names asciiCC ["a:b".data, "a".data, "a".data, "a_001".data] false =
      ["a-b".data, "a_001".data, "a_002".data, "a_001".data] ∧
    ¬ (["a-b".data, "a_001".data, "a_002".data, "a_001".data] : List Str).Nodup ∧
    (["a:b".data, "a".data, "a".data, "a_001".data].map (title_to_filename asciiCC)).count ("a-b".data) = 1 ∧
    ("a-b".data : Str) ≠ "a:b".data := by
  refine ⟨by decide, by decide, by decide, by decide⟩

/-- C2 amended: for every list of N titles that contains duplicates,
`make_unique_names` returns exactly N names, all non-empty and free of
banned characters; every name whose sanitized form occurs only once is
returned as its sanitized form (hence unchanged exactly when the input
was already sanitized); and the returned names are pairwise distinct
provided the counter suffixes introduce no collision with another
sanitized name or with each other (`noNewCollision`). -/
theorem claim_C2_amended_make_unique_names (cc : CharClass) (names : List Str) (hasExt : Bool)
    (hdup : ¬ names.Nodup) (H : noNewCollision cc names hasExt = true) :
    (make_unique_names cc names hasExt).length = names.length ∧
    (make_unique_names cc names hasExt).all okName = true ∧
    (∀ i, i < names.length →
      (names.map (title_to_filename cc)).count ((names.map (title_to_filename cc)).getD i []) = 1 →
      (make_unique_names cc names hasExt).getD i [] = (names.map (title_to_filename cc)).getD i []) ∧
    (make_unique_names cc names hasExt).Nodup := by
  refine ⟨make_unique_names_length cc names hasExt, make_unique_names_all_okName cc names hasExt, ?_, ?_⟩
  · intro i hi hcount
    rw [make_unique_names_getD cc names hasExt i hi]
    rw [if_neg (by omega)]
  · rw [noNewCollision] at H
    apply make_unique_names_nodup cc names hasExt
    · intro i hi j hj h2i h2j hne
      have hb := List.all_eq_true.mp
        (List.all_eq_true.mp H _ (List.mem_range.mpr hi))
        _ (List.mem_range.mpr hj)
      rw [Bool.and_eq_true] at hb
      have h' := hb.1
      rw [Bool.or_eq_true] at h'
      rcases h' with h' | h'
      · rw [Bool.not_eq_true'] at h'
        exfalso
        simp only [Bool.and_eq_false_iff, decide_eq_false_iff_not] at h'
        rcases h' with (h' | h') | h'
        · exact h' h2i
        · exact h' h2j
        · exact h' hne
      · simpa using h'
    · intro i hi j hj h2i hcj
      have hb := List.all_eq_true.mp
        (List.all_eq_true.mp H _ (List.mem_range.mpr hi))
        _ (List.mem_range.mpr hj)
      rw [Bool.and_eq_true] at hb
      have h' := hb.2
      rw [Bool.or_eq_true] at h'
      rcases h' with h' | h'
      · rw [Bool.not_eq_true'] at h'
        exfalso
        simp only [Bool.and_eq_false_iff, decide_eq_false_iff_not] at h'
        rcases h' with h' | h'
        · exact h' h2i
        · exact h' hcj
      · simpa using h'

/-- C2 witness: the amended theorem applied to `["x", "x", "y:"]`. -/
theorem claim_C2_amended_witness :
    (¬ (["x".data, "x".data, "y:".data] : List Str).Nodup) ∧
    noNewCollision asciiCC ["x".data, "x".data, "y:".data] false = true ∧
    (make_unique_names asciiCC ["x".data, "x".data, "y:".data] false).Nodup ∧
    (make_unique_names asciiCC ["x".data, "x".data, "y:".data] false).length = 3 :=
  ⟨by decide, by decide,
   (claim_C2_amended_make_unique_names asciiCC ["x".data, "x".data, "y:".data] false
     (by decide) (by decide)).2.2.2,
   (claim_C2_amended_make_unique_names asciiCC ["x".data, "x".data, "y:".data] false
     (by decide) (by decide)).1⟩

/-- C10: `make_unique_names` sanitizes every input name before counting
and suffixing, so every returned name is non-empty and free of banned
characters whatever the caller passed; consequently a name that is not
already in sanitized form is returned altered even when its sanitized
form occurs only once in the list. -/
theorem claim_C10_make_unique_names_sanitizes (cc : CharClass) (names : List Str) (hasExt : Bool) :
    (make_unique_names cc names hasExt).all okName = true ∧
    (∀ i, i < names.length →
      (names.map (title_to_filename cc)).count ((names.map (title_to_filename cc)).getD i []) = 1 →
      names.getD i [] ≠ (names.map (title_to_filename cc)).getD i [] →
      ((make_unique_names cc names hasExt).getD i [] = (names.map (title_to_filename cc)).getD i [] ∧
       (make_unique_names cc names hasExt).getD i [] ≠ names.getD i [])) := by
  refine ⟨make_unique_names_all_okName cc names hasExt, ?_⟩
  intro i hi hcount hne
  have heq : (make_unique_names cc names hasExt).getD i [] =
      (names.map (title_to_filename cc)).getD i [] := by
    rw [make_unique_names_getD cc names hasExt i hi]
    rw [if_neg (by omega)]
  exact ⟨heq, fun hcontra => hne (by rw [← hcontra, heq])⟩

/-- C10 witness: the input name "a:b" occurs once, is not sanitized, and
comes back as "a-b". -/
theorem claim_C10_witness :
    (["a:b".data].map (title_to_filename asciiCC)).count ((["a:b".data].map (title_to_filename asciiCC)).getD 0 []) = 1 ∧
    (make_unique_names asciiCC ["a:b".data] false).getD 0 [] ≠ ("a:b".data : Str) :=
  ⟨by decide,
   ((claim_C10_make_unique_names_sanitizes asciiCC ["a:b".data] false).2 0 (by decide)
     (by decide) (by decide)).2⟩

/-- C8: a recurring sanitized name at position `i` receives the suffix
`suffixName`: an underscore followed by the occurrence counter zero-padded
to three digits, starting at 1 and incremented per occurrence in input
order (`occValue` is one plus the number of earlier occurrences); with
`hasExt = true` the counter is appended to the next-to-last dot segment
(before the final extension segment), with `hasExt = false` it is appended
directly.  In particular the two concrete examples of the claim hold. -/
theorem claim_C8_counter_suffixing :
    (∀ (cc : CharClass) (names : List Str) (hasExt : Bool) (i : Nat), i < names.length →
      2 ≤ (names.map (title_to_filename cc)).count ((names.map (title_to_filename cc)).getD i []) →
      (make_unique_names cc names hasExt).getD i [] =
        suffixName hasExt ((names.map (title_to_filename cc)).getD i [])
          (occValue (names.map (title_to_filename cc)) i)) ∧
    make_unique_names asciiCC ["photo.jpg".data, "photo.jpg".data] true =
      ["photo_001.jpg".data, "photo_002.jpg".data] ∧
    make_unique_names asciiCC ["party".data, "party".data] false =
      ["party_001".data, "party_002".data] := by
  refine ⟨?_, by decide, by decide⟩
  intro cc names hasExt i hi h2
  rw [make_unique_names_getD cc names hasExt i hi, if_pos h2]
  rfl

/-- C8 witness: the general description applied to the second occurrence
of "photo.jpg". -/
theorem claim_C8_witness :
    1 < (["photo.jpg".data, "photo.jpg".data] : List Str).length ∧
    2 ≤ ((["photo.jpg".data, "photo.jpg".data] : List Str).map (title_to_filename asciiCC)).count
      (((["photo.jpg".data, "photo.jpg".data] : List Str).map (title_to_filename asciiCC)).getD 1 []) ∧
    (make_unique_names asciiCC ["photo.jpg".data, "photo.jpg".data] true).getD 1 [] =
      suffixName true (((["photo.jpg".data, "photo.jpg".data] : List Str).map (title_to_filename asciiCC)).getD 1 [])
        (occValue ((["photo.jpg".data, "photo.jpg".data] : List Str).map (title_to_filename asciiCC)) 1) :=
  ⟨by decide, by decide,
   claim_C8_counter_suffixing.1 asciiCC ["photo.jpg".data, "photo.jpg".data] true 1
     (by decide) (by decide)⟩

/-- C4: when the planned directory of group `(i, j)` exists with at least
as many entries as the group has materials, `assign_dir_and_file_names`
marks every material of that group downloaded and makes no per-file
metadata call for it (the call list of its `planGroup` is empty). -/
theorem claim_C4_fast_path (cc : CharClass) (drive : Drive) (mt : MimeTypes)
    (courses : List Course) (fs : FS) (i j : Nat)
    (hi : i < (stageNames cc courses).length)
    (hj : j < ((stageNames cc courses).getD i dummyCourse).courseWorkMaterials.length)
    (hfast : fastCond fs ((stageNames cc courses).getD i dummyCourse).dirname
      (((stageNames cc courses).getD i dummyCourse).courseWorkMaterials.getD j dummyCWM) = true) :
    ((((assign_dir_and_file_names cc drive mt courses fs).1.getD i dummyCourse).courseWorkMaterials.getD j dummyCWM).materials.all
      (fun m => m.downloaded) = true) ∧
    (planGroup cc drive mt fs ((stageNames cc courses).getD i dummyCourse).dirname
      (((stageNames cc courses).getD i dummyCourse).courseWorkMaterials.getD j dummyCWM)).2.1 = [] := by
  have hall := setGroupFlags_all_of_fast fs ((stageNames cc courses).getD i dummyCourse).dirname
    (((stageNames cc courses).getD i dummyCourse).courseWorkMaterials.getD j dummyCWM) hfast
  have huntouched := processGroup_untouched cc drive mt fs
    ((stageNames cc courses).getD i dummyCourse).dirname _ hall
  constructor
  · rw [planner_group_getD cc drive mt courses fs i j hi hj]
    rw [planGroup, huntouched]
    exact hall
  · rw [planGroup, huntouched]

/-- C4 witness: the fast path applied to `c4Course` over `c4FS`. -/
theorem claim_C4_witness :
    fastCond c4FS ((stageNames asciiCC [c4Course]).getD 0 dummyCourse).dirname
      (((stageNames asciiCC [c4Course]).getD 0 dummyCourse).courseWorkMaterials.getD 0 dummyCWM) = true ∧
    ((((assign_dir_and_file_names asciiCC dummyDrive dummyMT [c4Course] c4FS).1.getD 0 dummyCourse).courseWorkMaterials.getD 0 dummyCWM).materials.all
      (fun m => m.downloaded) = true) :=
  ⟨by decide,
   (claim_C4_fast_path asciiCC dummyDrive dummyMT [c4Course] c4FS 0 0
     (by decide) (by decide) (by decide)).1⟩

/-- C6: the `downloaded` flag is monotone within a run.  Every group
whose materials are all flagged after the first planner loop
(`stageFlags`) is returned identically — flags included — by the full
planner; the second loop only rewrites groups holding an unflagged
material (which the first loop flagged uniformly false), and the download
phase never writes the flag (its model returns no catalog). -/
theorem claim_C6_flags_monotone (cc : CharClass) (drive : Drive) (mt : MimeTypes)
    (courses : List Course) (fs : FS) :
    flagsMonotone (stageFlags cc fs courses) (assign_dir_and_file_names cc drive mt courses fs).1 = true := by
  have hplanner : (assign_dir_and_file_names cc drive mt courses fs).1 =
      (stageFlags cc fs courses).map (fun c =>
        { c with courseWorkMaterials :=
            c.courseWorkMaterials.map (fun w => (processGroup cc drive mt fs c.dirname w).1) }) := by
    rw [assign_dir_and_file_names]
    rw [List.map_map]
    apply List.map_congr_left
    intro c _
    simp [List.map_map, Function.comp_def]
  rw [flagsMonotone, hplanner, zip_self_map, List.all_eq_true]
  intro p hp
  rcases List.mem_map.mp hp with ⟨c, hc, rfl⟩
  simp only []
  rw [zip_self_map, List.all_eq_true]
  intro q hq
  rcases List.mem_map.mp hq with ⟨w, hw, rfl⟩
  rw [groupUntouched]
  by_cases h : w.materials.all (fun m => m.downloaded) = true
  · rw [processGroup_untouched cc drive mt fs c.dirname w h]
    simp
  · rw [Bool.eq_false_iff.mpr h]
    rfl

/-- C7: `download_file` never silently overwrites.  Every file entry of
the incoming filesystem survives with its content in the outgoing one;
and in the branches that write `filepath` itself (known size, export
link, successful export conversion), a pre-existing entry at `filepath`
makes the call raise (`open(..., 'xb')`) instead of replacing content. -/
theorem claim_C7_no_silent_overwrite :
    (∀ (cc : CharClass) (drive : Drive) (mt : MimeTypes) (m : Material) (filepath : FsPath) (fs : FS),
      ∀ e ∈ fs.files, e ∈ (download_file cc drive mt m filepath fs).1.files) ∧
    (∀ (cc : CharClass) (drive : Drive) (mt : MimeTypes) (m : Material) (filepath : FsPath) (fs : FS),
      fs.existsPath filepath = true →
      (m.size.isSome = true ∨ keyMem m.mimeType m.exportLinks = true ∨
        (m.mimeType ≠ folderMime ∧ (drive.exportMedia m.ID m.mimeType).isSome = true)) →
      (download_file cc drive mt m filepath fs).2.2 = DLOut.exc) := by
  constructor
  · intro cc drive mt m filepath fs e he
    exact (download_file_le cc drive mt m filepath fs).1 e he
  · intro cc drive mt m filepath fs hex hbr
    exact download_file_exc_of_exists cc drive mt m filepath fs hex hbr

/-- C7 witness: writing over the existing file `a` raises, and the old
content survives. -/
theorem claim_C7_witness :
    c7FS.existsPath ["a".data] = true ∧
    c7Material.size.isSome = true ∧
    (download_file asciiCC dummyDrive dummyMT c7Material ["a".data] c7FS).2.2 = DLOut.exc ∧
    (["a".data], "OLD".data) ∈ (download_file asciiCC dummyDrive dummyMT c7Material ["a".data] c7FS).1.files :=
  ⟨by decide, by decide,
   claim_C7_no_silent_overwrite.2 asciiCC dummyDrive dummyMT c7Material ["a".data] c7FS
     (by decide) (Or.inl (by decide)),
   claim_C7_no_silent_overwrite.1 asciiCC dummyDrive dummyMT c7Material ["a".data] c7FS
     (["a".data], "OLD".data) (by decide)⟩

/-- C1, at the failing input: on an export content-type mismatch the code
does print the warning, but the missing `return` lets control fall
through to the write, so `open(filepath, 'xb')` creates the destination
file (empty) and evaluating the unassigned local `data` raises — the run
aborts instead of continuing with the next material. -/
theorem claim_C1_export_mismatch_behaviour :
    (download_file asciiCC c1Drive dummyMT c1Material ["c".data, "w".data, "f.pdf".data] emptyFS).2.1 =
      [Warn.unableToDownload] ∧
    (["c".data, "w".data, "f.pdf".data], ([] : Str)) ∈
      (download_file asciiCC c1Drive dummyMT c1Material ["c".data, "w".data, "f.pdf".data] emptyFS).1.files ∧
    (download_file asciiCC c1Drive dummyMT c1Material ["c".data, "w".data, "f.pdf".data] emptyFS).2.2 = DLOut.exc := by
  refine ⟨by decide, by decide, by decide⟩

/-- C5 counterexample: a catalog holding one empty-folder material.  The
first run completes normally (the folder branch writes nothing), yet the
second run's planner still counts one file to download, calls
`download_file` once again, and leaves the material unflagged — the sync
is not idempotent as claimed. -/
theorem claim_C5_counterexample :
    (runSync asciiCC c5FolderDrive dummyMT c5Catalog emptyFS).2.2.2 = DLOut.ok ∧
    (runSync asciiCC c5FolderDrive dummyMT c5Catalog
      (runSync asciiCC c5FolderDrive dummyMT c5Catalog emptyFS).2.1).1.2 = 1 ∧
    (runSync asciiCC c5FolderDrive dummyMT c5Catalog
      (runSync asciiCC c5FolderDrive dummyMT c5Catalog emptyFS).2.1).2.2.1 = 1 ∧
    allDownloaded (runSync asciiCC c5FolderDrive dummyMT c5Catalog
      (runSync asciiCC c5FolderDrive dummyMT c5Catalog emptyFS).2.1).1.1 = false := by
  refine ⟨by decide, by decide, by decide, by decide⟩

/-- C5 amended: running the sync twice against the same catalog and
directory performs zero downloads on the second run, provided the first
run's download phase completed without exception and materialized the
planned file of every material its planner left pending (folder
materials, export mismatches and failed conversions can break this, as
the counterexample shows).  The second run's planner then marks every
material downloaded, plans zero downloads, invokes `download_file` zero
times and leaves the filesystem untouched. -/
theorem claim_C5_amended_idempotence (cc : CharClass) (drive : Drive) (mt : MimeTypes)
    (courses : List Course) (fs0 : FS)
    (H1 : (runSync cc drive mt courses fs0).2.2.2 = DLOut.ok)
    (H2 : allPendingMaterialized (runSync cc drive mt courses fs0).1.1
      (runSync cc drive mt courses fs0).2.1 = true) :
    allDownloaded (runSync cc drive mt courses (runSync cc drive mt courses fs0).2.1).1.1 = true ∧
    (runSync cc drive mt courses (runSync cc drive mt courses fs0).2.1).1.2 = 0 ∧
    (runSync cc drive mt courses (runSync cc drive mt courses fs0).2.1).2.2.1 = 0 ∧
    (runSync cc drive mt courses (runSync cc drive mt courses fs0).2.1).2.2.2 = DLOut.ok ∧
    (runSync cc drive mt courses (runSync cc drive mt courses fs0).2.1).2.1 =
      (runSync cc drive mt courses fs0).2.1 := by
  have hle : FS.Le fs0 (runSync cc drive mt courses fs0).2.1 :=
    download_missing_files_le cc drive mt (assign_dir_and_file_names cc drive mt courses fs0).1 fs0
  have hmain := planner_second_run cc drive mt courses hle H2
  have hall : allDownloaded
      (runSync cc drive mt courses (runSync cc drive mt courses fs0).2.1).1.1 = true := hmain.1
  have hdone := downloadCourses_all_done cc drive mt (runSync cc drive mt courses fs0).2.1
    (assign_dir_and_file_names cc drive mt courses (runSync cc drive mt courses fs0).2.1).1
    (by rw [← allDownloaded]; exact hmain.1)
  refine ⟨hall, hmain.2, ?_, ?_, ?_⟩
  · show (download_missing_files cc drive mt
      (assign_dir_and_file_names cc drive mt courses (runSync cc drive mt courses fs0).2.1).1
      (runSync cc drive mt courses fs0).2.1).2.1 = 0
    rw [download_missing_files, hdone]
  · show (download_missing_files cc drive mt
      (assign_dir_and_file_names cc drive mt courses (runSync cc drive mt courses fs0).2.1).1
      (runSync cc drive mt courses fs0).2.1).2.2 = DLOut.ok
    rw [download_missing_files, hdone]
  · show (download_missing_files cc drive mt
      (assign_dir_and_file_names cc drive mt courses (runSync cc drive mt courses fs0).2.1).1
      (runSync cc drive mt courses fs0).2.1).1 = (runSync cc drive mt courses fs0).2.1
    rw [download_missing_files, hdone]

/-- C5 witness: a one-file catalog whose first run downloads the file;
the second run marks it downloaded and plans nothing. -/
theorem claim_C5_amended_witness :
    (runSync asciiCC c5DirectDrive dummyMT c5Catalog2 emptyFS).2.2.2 = DLOut.ok ∧
    allPendingMaterialized (runSync asciiCC c5DirectDrive dummyMT c5Catalog2 emptyFS).1.1
      (runSync asciiCC c5DirectDrive dummyMT c5Catalog2 emptyFS).2.1 = true ∧
    allDownloaded (runSync asciiCC c5DirectDrive dummyMT c5Catalog2
      (runSync asciiCC c5DirectDrive dummyMT c5Catalog2 emptyFS).2.1).1.1 = true ∧
    (runSync asciiCC c5DirectDrive dummyMT c5Catalog2
      (runSync asciiCC c5DirectDrive dummyMT c5Catalog2 emptyFS).2.1).1.2 = 0 :=
  ⟨by decide, by decide,
   (claim_C5_amended_idempotence asciiCC c5DirectDrive dummyMT c5Catalog2 emptyFS
     (by decide) (by decide)).1,
   (claim_C5_amended_idempotence asciiCC c5DirectDrive dummyMT c5Catalog2 emptyFS
     (by decide) (by decide)).2.1⟩

